import Mathlib

/-!
Verification of the heuristic product-extraction engine of a browser
extension (content script `content.js`, scanner tool `selector-finder.js`,
selector table `site-selectors.js`).

The JavaScript source is shallowly embedded: DOM elements become records
carrying exactly the fields the source reads (inner text, superscript
descendants, layout data, class/selector flags), the hand-written regular
expressions of the source become explicit scanning functions on character
lists, JS `parseFloat` becomes an exact parser into `ℚ` (safe for the
magnitudes compared here), and JS stable `Array.prototype.sort` with a
comparator becomes a stable insertion sort.
-/

namespace Extract

/-- The fixed currency-symbol set of the source regexes: `[$€£¥]`. -/
def isCurrency (c : Char) : Bool :=
  c = '$' || c = '€' || c = '£' || c = '¥'

/-- JS `String.prototype.trim` on a character list. -/
def trimList (cs : List Char) : List Char :=
  ((cs.dropWhile Char.isWhitespace).reverse.dropWhile Char.isWhitespace).reverse

/-- JS `String.prototype.trim`. -/
def jsTrim (s : String) : String := String.mk (trimList s.data)

/-- The character-strip of the source value parses:
`replace(/[$€£¥\s,]/g, '')` — drop currency symbols, whitespace, commas. -/
def stripPrice (cs : List Char) : List Char :=
  cs.filter (fun c => !(isCurrency c || c.isWhitespace || c = ','))

/-- Numeric value of a digit list read in base 10. -/
def digitsToNat (cs : List Char) : Nat :=
  cs.foldl (fun a c => a * 10 + (c.toNat - 48)) 0

/-- An exact fraction `num / den`, used to model the JS floating-point
numbers this code computes with.  Every number the source compares or
sorts is an exact short decimal, so exact fraction arithmetic agrees with
the IEEE-754 computation on all comparisons performed here.  Operations
never normalise, so everything reduces inside the kernel; comparisons are
by cross-multiplication. -/
structure Frac where
  num : Int
  den : Nat
deriving DecidableEq

namespace Frac

/-- A well-formed fraction has a positive denominator. -/
def Wf (a : Frac) : Prop := 0 < a.den

/-- Embed an integer. -/
def ofInt (n : Int) : Frac := ⟨n, 1⟩

/-- Embed a natural number. -/
def ofNat (n : Nat) : Frac := ⟨n, 1⟩

/-- Addition without normalisation. -/
def add (a b : Frac) : Frac := ⟨a.num * b.den + b.num * a.den, a.den * b.den⟩

/-- Subtraction without normalisation. -/
def sub (a b : Frac) : Frac := ⟨a.num * b.den - b.num * a.den, a.den * b.den⟩

/-- Multiplication without normalisation. -/
def mul (a b : Frac) : Frac := ⟨a.num * b.num, a.den * b.den⟩

/-- Comparison `a ≤ b` by cross-multiplication. -/
def leB (a b : Frac) : Bool := decide (a.num * (b.den : Int) ≤ b.num * (a.den : Int))

/-- Comparison `a < b` by cross-multiplication. -/
def ltB (a b : Frac) : Bool := decide (a.num * (b.den : Int) < b.num * (a.den : Int))

/-- Value equality (not structural equality) by cross-multiplication. -/
def eqB (a b : Frac) : Bool := decide (a.num * (b.den : Int) = b.num * (a.den : Int))

/-- JS `Math.min` on two numbers. -/
def minF (a b : Frac) : Frac := if leB a b then a else b

/-- JS `Math.abs`. -/
def absF (a : Frac) : Frac := ⟨a.num.natAbs, a.den⟩

/-- JS `Math.round`: round half toward positive infinity,
`⌊a + 1/2⌋ = ⌊(2 num + den) / (2 den)⌋` via flooring integer division. -/
def roundHalfUp (a : Frac) : Int := Int.fdiv (2 * a.num + a.den) (2 * a.den)

end Frac

/-- JS `parseFloat` semantics on the stripped strings this code feeds it:
leading digits, optionally a dot and more digits; `none` models `NaN`. -/
def parseFloatR (cs : List Char) : Option Frac :=
  let d1 := cs.takeWhile Char.isDigit
  let r1 := cs.dropWhile Char.isDigit
  match r1 with
  | '.' :: r2 =>
    let d2 := r2.takeWhile Char.isDigit
    if d1.isEmpty && d2.isEmpty then none
    else some ⟨digitsToNat d1 * 10 ^ d2.length + digitsToNat d2, 10 ^ d2.length⟩
  | _ => if d1.isEmpty then none else some ⟨digitsToNat d1, 1⟩

/-- Numeric value of a price string: `parseFloat(p.replace(/[$€£¥\s,]/g,''))`
(the second `.replace(',', '.')` of the source is a no-op after the global
comma removal). `none` models `NaN`. -/
def val (s : String) : Option Frac := parseFloatR (stripPrice s.data)

/-- The value `0.50` of the plausibility filter. -/
def lowBound : Frac := ⟨1, 2⟩

/-- The value `100000` of the plausibility filter. -/
def highBound : Frac := ⟨100000, 1⟩

/-- The plausibility-filter test `v >= 0.5 && v <= 100000` as the source
writes it on a possibly-`NaN` value: any comparison with `NaN` is false. -/
def plausibleB (v : Option Frac) : Bool :=
  match v with
  | some x => Frac.leB lowBound x && Frac.leB x highBound
  | none => false

/-- JS `padStart(2, '0')`. -/
def pad2 (cs : List Char) : List Char :=
  if cs.length < 2 then List.replicate (2 - cs.length) '0' ++ cs else cs

/-- Test of the source regex `^(\d{1,3})$`: the whole string is a run of
one to three digits. -/
def isDigitRun13 (s : String) : Bool :=
  decide (1 ≤ s.data.length) && decide (s.data.length ≤ 3) && s.data.all Char.isDigit

/-- First match of `/([$€£¥])\s?(\d+)/`, returning
(currency symbol, main digits, whole matched lexeme). -/
def matchCurrencyNum : List Char → Option (Char × List Char × List Char)
  | [] => none
  | c :: rest =>
    if isCurrency c then
      match rest with
      | [] => matchCurrencyNum rest
      | d :: rest2 =>
        if d.isWhitespace then
          let digs := rest2.takeWhile Char.isDigit
          if digs.isEmpty then matchCurrencyNum rest
          else some (c, digs, c :: d :: digs)
        else
          let digs := rest.takeWhile Char.isDigit
          if digs.isEmpty then matchCurrencyNum rest
          else some (c, digs, c :: digs)
    else matchCurrencyNum rest

/-- The digits-and-optional-decimal core of
`/\d+(?:[\.,]\d+)?/`: greedy digits, then an optional dot-or-comma
followed by at least one digit. -/
def fullCore (l : List Char) : Option (List Char × List Char) :=
  let digs := l.takeWhile Char.isDigit
  let r := l.dropWhile Char.isDigit
  if digs.isEmpty then none
  else
    match r with
    | s :: r2 =>
      if s = '.' || s = ',' then
        let d2 := r2.takeWhile Char.isDigit
        if d2.isEmpty then some (digs, r)
        else some (digs ++ s :: d2, r2.dropWhile Char.isDigit)
      else some (digs, r)
    | [] => some (digs, [])

/-- The `\s?` step shared by the price regexes: after the currency
symbol, greedily try one whitespace character before the core (the core
never starts with whitespace, so no backtracking arises). -/
def wsAttempt (core : List Char → Option (List Char × List Char))
    (c : Char) (rest : List Char) : Option (List Char × List Char) :=
  match rest with
  | [] => none
  | d :: rest2 =>
    if d.isWhitespace then
      match core rest2 with
      | some (lex, r) => some (c :: d :: lex, r)
      | none => none
    else
      match core rest with
      | some (lex, r) => some (c :: lex, r)
      | none => none

/-- One match attempt of `/([$€£¥]\s?\d+(?:[\.,]\d+)?)/` anchored at the
head of the list; returns (lexeme, rest after lexeme) on success. -/
def fullAttempt (c : Char) (rest : List Char) : Option (List Char × List Char) :=
  wsAttempt fullCore c rest

/-- Generic left-to-right scan of a regex of the form
`[$€£¥]\s?<core>`: at each position, a currency symbol starts a match
attempt; on failure the scan advances one character, exactly as the JS
regex engine does. -/
def scanT (att : Char → List Char → Option (List Char × List Char)) :
    List Char → Option (List Char × List Char)
  | [] => none
  | c :: rest =>
    if isCurrency c then
      match att c rest with
      | some (lex, r) => some (lex, r)
      | none => scanT att rest
    else scanT att rest

/-- First match of `/([$€£¥]\s?\d+(?:[\.,]\d+)?)/` with the remainder of
the input after the match (used to iterate matches of the `g` flag). -/
def matchFullT (cs : List Char) : Option (List Char × List Char) :=
  scanT fullAttempt cs

/-- First match (lexeme only) of `/([$€£¥]\s?\d+(?:[\.,]\d+)?)/`. -/
def matchFull (cs : List Char) : Option (List Char) :=
  (matchFullT cs).map (·.1)

/-- Fuelled iteration of a matcher, modelling `String.prototype.match` with
the `g` flag: collect successive non-overlapping matches left to right. -/
def matchAllAux (m : List Char → Option (List Char × List Char)) :
    Nat → List Char → List String
  | 0, _ => []
  | _ + 1, [] => []
  | fuel + 1, cs =>
    match m cs with
    | some (lex, r) => String.mk lex :: matchAllAux m fuel r
    | none => []

/-- All matches of `/([$€£¥]\s?\d+(?:[\.,]\d+)?)/g`. -/
def matchAllFull (s : String) : List String :=
  matchAllAux matchFullT (s.data.length + 1) s.data

/-- The `(?:,\d{3})*` part of the eBay price regex: greedily consume
comma-plus-three-digit groups (fuelled structural recursion). -/
def ebayGroups : Nat → List Char → (List Char × List Char)
  | 0, l => ([], l)
  | fuel + 1, l =>
    match l with
    | ',' :: a :: b :: d :: r =>
      if a.isDigit && b.isDigit && d.isDigit then
        (',' :: a :: b :: d :: (ebayGroups fuel r).1, (ebayGroups fuel r).2)
      else ([], l)
    | _ => ([], l)

/-- The `(?:\.\d{1,2})?` part of the eBay price regex: an optional dot
followed greedily by one or two digits. -/
def ebayDec : List Char → (List Char × List Char)
  | '.' :: a :: b :: r =>
    if a.isDigit then
      if b.isDigit then ('.' :: a :: [b], r) else ('.' :: [a], b :: r)
    else ([], '.' :: a :: b :: r)
  | '.' :: a :: r =>
    if a.isDigit then ('.' :: [a], r) else ([], '.' :: a :: r)
  | l => ([], l)

/-- One anchored attempt of the eBay price regex
`/([$€£¥]\s?\d{1,3}(?:,\d{3})*(?:\.\d{1,2})?)/` after the currency symbol:
one to three digits, then comma-separated groups of exactly three digits,
then an optional dot with one or two digits. -/
def ebayCore (l : List Char) : Option (List Char × List Char) :=
  let digs := (l.takeWhile Char.isDigit).take 3
  let r := l.drop digs.length
  if digs.isEmpty then none
  else
    let gr := ebayGroups r.length r
    let dr := ebayDec gr.2
    some (digs ++ gr.1 ++ dr.1, dr.2)

def ebayAttempt (c : Char) (rest : List Char) : Option (List Char × List Char) :=
  wsAttempt ebayCore c rest

/-- First match (with remainder) of the eBay price regex. -/
def matchEbayT (cs : List Char) : Option (List Char × List Char) :=
  scanT ebayAttempt cs

/-- All matches of the eBay price regex
`/([$€£¥]\s?\d{1,3}(?:,\d{3})*(?:\.\d{1,2})?)/g`. -/
def matchAllEbay (s : String) : List String :=
  matchAllAux matchEbayT (s.data.length + 1) s.data

/-- One anchored attempt of `/([$€£¥]\s?\d+\.\d{1,2}|[$€£¥]\s?\d+)/` after
the currency symbol: the decimal alternative is tried first. -/
def decCore (l : List Char) : Option (List Char × List Char) :=
  let digs := l.takeWhile Char.isDigit
  let r := l.dropWhile Char.isDigit
  if digs.isEmpty then none
  else
    match r with
    | '.' :: a :: b :: r2 =>
      if a.isDigit then
        if b.isDigit then some (digs ++ '.' :: a :: [b], r2)
        else some (digs ++ '.' :: [a], b :: r2)
      else some (digs, r)
    | '.' :: a :: r2 =>
      if a.isDigit then some (digs ++ '.' :: [a], r2) else some (digs, r)
    | _ => some (digs, r)

def decAttempt (c : Char) (rest : List Char) : Option (List Char × List Char) :=
  wsAttempt decCore c rest

/-- First match (with remainder) of the decimal-priority price regex. -/
def matchDecT (cs : List Char) : Option (List Char × List Char) :=
  scanT decAttempt cs

/-- All matches of `/([$€£¥]\s?\d+\.\d{1,2}|[$€£¥]\s?\d+)/g`. -/
def matchAllDec (s : String) : List String :=
  matchAllAux matchDecT (s.data.length + 1) s.data

/-- Substring test, modelling JS `String.prototype.includes`. -/
def containsSub (s sub : String) : Bool :=
  decide (sub.data <:+: s.data)

/-- ASCII lower-casing, modelling JS `toLowerCase` on the ASCII texts
this code compares. -/
def lowerStr (s : String) : String := String.mk (s.data.map Char.toLower)

/-- Test of the source regex `/\.\d{1,2}$/`: the string ends with a dot
followed by one or two digits. -/
def endsWithDec (s : String) : Bool :=
  match s.data.reverse with
  | a :: '.' :: _ => a.isDigit
  | a :: b :: '.' :: _ => a.isDigit && b.isDigit
  | _ => false

/-! ### Stable sorting, modelling `Array.prototype.sort` with a comparator

`insertBy r x l` inserts `x` after every element `y` of `l` with
`r y x = true`, where `r y x` means "comparator keeps `y` before `x`",
i.e. `comparator(x, y) ≥ 0`.  Folding from the left gives the stable sort
of ECMAScript `Array.prototype.sort`. -/

def insertBy {α : Type} (r : α → α → Bool) (x : α) : List α → List α
  | [] => [x]
  | y :: ys => if r y x then y :: insertBy r x ys else x :: y :: ys

/-- Stable sort by a JS comparator-derived relation. -/
def jsSortBy {α : Type} (r : α → α → Bool) (l : List α) : List α :=
  l.foldl (fun acc x => insertBy r x acc) []

/-! ### The price token parser: `extractPriceFromElement` (content.js 87-144) -/

/-- The next-sibling element probed in step 3 of `extractPriceFromElement`:
its text content and whether it is recognised as superscript
(`tagName === 'SUP'`, `vertical-align: super`, or a smaller computed font
size than the price element). -/
structure Sib where
  text : String
  isSup : Bool
deriving DecidableEq

/-- A DOM element as read by the price token parser: its `innerText`, the
text contents of the descendants matched by
`'sup, [style*="vertical-align"], [style*="font-size"]'` in document
order, and the immediate next sibling element if any. -/
structure Elem where
  innerText : String
  sups : List String
  nextSib : Option Sib
deriving DecidableEq

/-- `extractPriceFromElement` (content.js 87-144): find the first
currency-symbol-plus-digits match, then probe superscript descendants and
the next sibling for a 1-3 digit cent run; fall back to the whole matched
lexeme, or to the full price regex when the main regex fails. -/
def extractPriceFromElement (el : Elem) : Option String :=
  let text := jsTrim el.innerText
  match matchCurrencyNum text.data with
  | some (currency, mainPrice, match0) =>
    match el.sups.find? (fun t => isDigitRun13 (jsTrim t)) with
    | some s => some (String.mk (currency :: mainPrice ++ '.' :: pad2 (jsTrim s).data))
    | none =>
      match el.nextSib with
      | some sib =>
        if isDigitRun13 (jsTrim sib.text) && sib.isSup then
          some (String.mk (currency :: mainPrice ++ '.' :: pad2 (jsTrim sib.text).data))
        else some (String.mk match0)
      | none => some (String.mk match0)
  | none =>
    match matchFull text.data with
    | some lex => some (String.mk lex)
    | none => none

/-! ### Product-page classifier: `detectProductPage` (content.js 427-573) -/

/-- The ten boolean signals probed by `detectProductPage`, in source
order: Schema.org markup, JSON-LD product data, product attributes,
visible price elements, add-to-cart button, large product images, a
plausible h1 title, a quantity selector, reviews, and variant controls. -/
structure SignalSet where
  schemaProduct : Bool
  productJsonLd : Bool
  productAttrs : Bool
  priceElements : Bool
  addToCart : Bool
  productImages : Bool
  productTitle : Bool
  quantitySelector : Bool
  reviews : Bool
  variants : Bool
deriving DecidableEq

/-- The aggregate score of `detectProductPage`: weights 5, 5, 3, 3, 4, 2,
2, 1, 1, 1 added in source order. -/
def detectScore (s : SignalSet) : Nat :=
  (if s.schemaProduct then 5 else 0) +
  (if s.productJsonLd then 5 else 0) +
  (if s.productAttrs then 3 else 0) +
  (if s.priceElements then 3 else 0) +
  (if s.addToCart then 4 else 0) +
  (if s.productImages then 2 else 0) +
  (if s.productTitle then 2 else 0) +
  (if s.quantitySelector then 1 else 0) +
  (if s.reviews then 1 else 0) +
  (if s.variants then 1 else 0)

/-- The record returned by `detectProductPage` (indicator strings omitted;
they carry no data the claims mention). -/
structure PageCheck where
  isProductPage : Bool
  confidence : Int
  score : Nat
  maxScore : Nat
deriving DecidableEq

/-- `detectProductPage` (content.js 427-573):
`confidence = Math.round(Math.min((score / 20) * 100, 100))` and
`isProductPage = score >= 6`. -/
def detectProductPage (s : SignalSet) : PageCheck :=
  let score := detectScore s
  let confidence := Frac.roundHalfUp (Frac.minF ⟨(score : Int) * 100, 20⟩ ⟨100, 1⟩)
  { isProductPage := decide (6 ≤ score)
    confidence := confidence
    score := score
    maxScore := 20 }

/-! ### Name extraction: `extractProductName` (content.js 50-70) and the
scanner name search (selector-finder.js 298-328) -/

/-- An `h1` element as read by `extractProductName`: its `innerText` and
its layout `rect.top`. -/
structure H1 where
  innerText : String
  top : Frac
deriving DecidableEq

/-- The h1 ranking score `rect.top + el.innerText.length * 0.5`
(lower is better; note the length of the untrimmed text is used). -/
def nameScore (h : H1) : Frac :=
  Frac.add h.top (Frac.mul ⟨(h.innerText.length : Int), 1⟩ ⟨1, 2⟩)

/-- A scored name candidate of `extractProductName`. -/
structure NameCand where
  text : String
  score : Frac
deriving DecidableEq

/-- Keep-before relation of the ascending score sort
`(a, b) => a.score - b.score`. -/
def nameKeep (y x : NameCand) : Bool := Frac.leB y.score x.score

/-- `extractProductName` (content.js 50-70): keep non-empty h1s, score by
position plus half the text length, return the lowest-scoring text
(`candidates[0]?.text || null`). -/
def extractProductName (hs : List H1) : Option String :=
  if hs.isEmpty then none
  else
    let candidates := (hs.filter (fun h => 0 < (jsTrim h.innerText).length)).map
      (fun h => ({ text := jsTrim h.innerText, score := nameScore h } : NameCand))
    let sorted := jsSortBy nameKeep candidates
    match sorted.head? with
    | some c => if c.text.isEmpty then none else some c.text
    | none => none

/-- An element as read by the scanner name search: its `innerText` and
whether it is laid out (`offsetParent !== null`). -/
structure ScanEl where
  innerText : String
  visible : Bool
deriving DecidableEq

/-- The scanner name filter (selector-finder.js 304):
`text.length > 10 && text.length < 200 && el.offsetParent !== null`
on the trimmed inner text. -/
def nameScanAccept (el : ScanEl) : Bool :=
  let t := jsTrim el.innerText
  decide (10 < t.length) && decide (t.length < 200) && el.visible

/-- The elements kept by the scanner name search. -/
def scanNames (els : List ScanEl) : List ScanEl :=
  els.filter nameScanAccept

/-! ### Final validation of `extractProductInfo` (content.js 1543-1551) -/

/-- The product record assembled by `extractProductInfo` (`site`, `url`
and `timestamp` are environment pass-throughs and are omitted). -/
structure ProductData where
  name : Option String
  image : Option String
  price : Option String
deriving DecidableEq

/-- JS falsiness of a nullable string: `null` and `''` are falsy. -/
def jsFalsyStr : Option String → Bool
  | none => true
  | some s => s.isEmpty

/-- The final validation step (content.js 1547-1551): throw when name,
image and price are all falsy, otherwise return the record. -/
def finalValidate (d : ProductData) : Except String ProductData :=
  if jsFalsyStr d.name && jsFalsyStr d.image && jsFalsyStr d.price then
    Except.error "Could not find product information on this page."
  else Except.ok d

/-! ### Scanner result ordering (selector-finder.js 510-525) -/

/-- The search root a scanner candidate came from. -/
inductive CandSource
  | modal
  | mainPage
deriving DecidableEq

/-- A scanner field candidate as sorted by `findProductSelectors`. -/
structure Cand where
  selector : String
  confidence : Frac
  source : CandSource
deriving DecidableEq

/-- Keep-before relation of the scanner result sort comparator:
modal-sourced first regardless of score, then descending confidence. -/
def candKeep (y x : Cand) : Bool :=
  match x.source, y.source with
  | CandSource.modal, CandSource.mainPage => false
  | CandSource.mainPage, CandSource.modal => true
  | _, _ => Frac.leB x.confidence y.confidence

/-- The result sort of `findProductSelectors` (selector-finder.js
510-525), applied identically to the name, price and image lists. -/
def sortResults (l : List Cand) : List Cand := jsSortBy candKeep l

/-! ### JS comparisons against possibly-NaN values -/

/-- JS `v < b` where `v` may be `NaN` (`none`): false on `NaN`. -/
def vLtB : Option Frac → Frac → Bool
  | some x, b => Frac.ltB x b
  | none, _ => false

/-- JS `v <= b` where `v` may be `NaN`. -/
def vLeB : Option Frac → Frac → Bool
  | some x, b => Frac.leB x b
  | none, _ => false

/-- JS `v >= b` where `v` may be `NaN`. -/
def vGeB : Option Frac → Frac → Bool
  | some x, b => Frac.leB b x
  | none, _ => false

/-- JS `v > b` where `v` may be `NaN`. -/
def vGtB : Option Frac → Frac → Bool
  | some x, b => Frac.ltB b x
  | none, _ => false

/-- JS `a < b` where both may be `NaN`. -/
def vLtOpt : Option Frac → Option Frac → Bool
  | some x, some y => Frac.ltB x y
  | _, _ => false

/-- A price token paired with its parsed numeric value, as built by the
multi-price handlers (`{ text: p.trim(), value: parseFloat(...) }`). -/
structure Tok where
  text : String
  value : Option Frac
deriving DecidableEq

/-- Keep-before relation of the ascending value sort
`(a, b) => a.value - b.value` (a `NaN` comparator result counts as `+0`,
per the ECMAScript `SortCompare` specification). -/
def tokKeepAsc (y x : Tok) : Bool :=
  match x.value, y.value with
  | some b, some a => Frac.leB a b
  | _, _ => true

/-- Keep-before relation of the descending value sort
`(a, b) => b.value - a.value`. -/
def tokKeepDesc (y x : Tok) : Bool :=
  match x.value, y.value with
  | some b, some a => Frac.leB b a
  | _, _ => true

/-! ### Whole-page heuristic price fallback: `extractPrice`
(content.js 231-349) -/

/-- A page element as read by `extractPrice`: the element for the token
parser, visibility, and layout data. -/
structure PageEl where
  el : Elem
  hidden : Bool
  top : Frac
  left : Frac
  fontSize : Frac
deriving DecidableEq

/-- Page-level context of `extractPrice`: the bottom edge of the detected
product-name element (if any) and the viewport width. -/
structure PriceEnv where
  nameBottom : Option Frac
  innerWidth : Frac
deriving DecidableEq

/-- The exclusion-word list of `extractPrice`. -/
def excludeWords : List String :=
  ["shipping", "delivery", "was", "save", "from", "starting at", "each",
   "per", "tax", "fee", "original", "list", "msrp"]

/-- `excludeWords.some(word => textLower.includes(word))`. -/
def hasExcludeWord (text : String) : Bool :=
  excludeWords.any (fun w => containsSub (lowerStr text) w)

/-- The candidate filter of `extractPrice` (content.js 251-283): visible,
price-bearing, short, no exclusion word, and value not implausible (the
two plausibility `if`s use JS `<`/`>`, so a `NaN` value passes). -/
def priceFilter (e : PageEl) : Bool :=
  if e.hidden then false
  else
    let priceText := extractPriceFromElement e.el
    let text := jsTrim e.el.innerText
    if priceText.isNone && (matchFull text.data).isNone then false
    else if 50 < text.length then false
    else if hasExcludeWord text then false
    else
      let finalPrice : Option String :=
        match priceText with
        | some p => some p
        | none => (matchFull text.data).map String.mk
      match finalPrice with
      | some fp =>
        if vLtB (val fp) lowBound then false
        else if vGtB (val fp) highBound then false
        else true
      | none => true

/-- A scored candidate of `extractPrice`. -/
structure PriceCand where
  price : String
  score : Frac
  priceValue : Option Frac
deriving DecidableEq

/-- The ranking score of `extractPrice` (content.js 299-332), lower is
better: base is `rect.top`, adjusted by name proximity, value range,
font size, tiny values, and far-right position. -/
def priceScoreF (env : PriceEnv) (e : PageEl) (priceValue : Option Frac) : Frac :=
  let s0 := e.top
  let s1 :=
    match env.nameBottom with
    | some nb =>
      if Frac.ltB (Frac.absF (Frac.sub e.top nb)) ⟨500, 1⟩ then Frac.sub s0 ⟨200, 1⟩ else s0
    | none => s0
  let s2 := if vGeB priceValue ⟨5, 1⟩ && vLeB priceValue ⟨5000, 1⟩ then Frac.sub s1 ⟨100, 1⟩ else s1
  let s3 := if Frac.ltB ⟨20, 1⟩ e.fontSize then Frac.sub s2 ⟨50, 1⟩ else s2
  let s4 := if vLtB priceValue ⟨5, 1⟩ then Frac.add s3 ⟨300, 1⟩ else s3
  if Frac.ltB (Frac.mul env.innerWidth ⟨7, 10⟩) e.left then Frac.add s4 ⟨150, 1⟩ else s4

/-- The candidate builder of `extractPrice` (content.js 285-339): the
token parser first, else the first full-regex match of the untrimmed
inner text. -/
def priceMap (env : PriceEnv) (e : PageEl) : Option PriceCand :=
  let priceText : Option String :=
    match extractPriceFromElement e.el with
    | some p => some p
    | none => (matchFull e.el.innerText.data).map String.mk
  match priceText with
  | some p => some { price := p, score := priceScoreF env e (val p), priceValue := val p }
  | none => none

/-- Keep-before relation of the ascending score sort of `extractPrice`. -/
def priceKeep (y x : PriceCand) : Bool := Frac.leB y.score x.score

/-- `extractPrice` (content.js 231-349): filter, score, stable sort
ascending by score, and return the best price
(`validCandidates[0]?.price || null`). -/
def extractPrice (env : PriceEnv) (els : List PageEl) : Option String :=
  let candidates := (els.filter priceFilter).map (priceMap env)
  if candidates.isEmpty then none
  else
    let valid := candidates.filterMap id
    match (jsSortBy priceKeep valid).head? with
    | some c => if c.price.isEmpty then none else some c.price
    | none => none

/-! ### eBay selector price path (content.js 887-1026) -/

/-- An eBay price element: the element for the token parser, its full
text, its parent text, and the class-based main-price-container checks
(`classList.contains`/`closest` and the `DIV`-plus-`className.includes`
variants, for both `x-price-primary` and `x-bin-price__content`). -/
structure EbayEl where
  el : Elem
  fullText : String
  parentText : Option String
  primaryDirect : Bool
  primaryDivClass : Bool
  binDirect : Bool
  binDivClass : Bool
deriving DecidableEq

/-- A scored eBay price candidate. -/
structure EbayCand where
  text : String
  value : Option Frac
  score : Frac
  selector : String
deriving DecidableEq

/-- Whether a string ends with a literal dot. -/
def endsWithDot (s : String) : Bool := s.data.getLast? = some '.'

/-- The per-element candidate step of the eBay price path (content.js
898-1017): multi-token → sort descending and take the highest; single
token → take it; none → token parser fallback; then the split-price
completion, plausibility gate and scoring. -/
def ebayStep (sel : String) (e : EbayEl) : Option EbayCand :=
  let allPrices := matchAllEbay e.fullText
  let first : Option (String × Option Frac) :=
    if 2 ≤ allPrices.length then
      let prices := allPrices.map (fun p => ({ text := jsTrim p, value := val (jsTrim p) } : Tok))
      match (jsSortBy tokKeepDesc prices).head? with
      | some t => some (t.text, t.value)
      | none => none
    else if allPrices.length = 1 then
      match allPrices.head? with
      | some p => some (jsTrim p, val (jsTrim p))
      | none => none
    else
      match extractPriceFromElement e.el with
      | some p => if (matchAllEbay p).isEmpty then none else some (p, val p)
      | none => none
  match first with
  | none => none
  | some (pt0, pv0) =>
    let completed : String × Option Frac :=
      if endsWithDot pt0 then
        match e.parentText with
        | some ptxt =>
          match (matchAllEbay ptxt).find? (fun p => pt0.data.isPrefixOf p.data) with
          | some comp =>
            if comp.data.contains '.' then (comp, val comp) else (pt0, pv0)
          | none => (pt0, pv0)
        | none => (pt0, pv0)
      else (pt0, pv0)
    let pt := completed.1
    let pv := completed.2
    if plausibleB pv then
      let selPrimary := sel = "div.x-price-primary" || containsSub sel "x-price-primary"
      let selBin := sel = "div.x-bin-price__content" || containsSub sel "x-bin-price__content"
      let isMain := e.primaryDirect || e.primaryDivClass || selPrimary ||
                    e.binDirect || e.binDivClass || selBin
      let sc0 : Frac := ⟨0, 1⟩
      let sc1 :=
        if isMain then
          if e.primaryDirect || selPrimary then Frac.add sc0 ⟨200000, 1⟩
          else Frac.add sc0 ⟨100000, 1⟩
        else sc0
      let sc2 := if vGeB pv ⟨50, 1⟩ && vLeB pv ⟨1000, 1⟩ then Frac.add sc1 ⟨20000, 1⟩ else sc1
      let sc3 := if vLtB pv ⟨30, 1⟩ then Frac.sub sc2 ⟨50000, 1⟩ else sc2
      let sc4 :=
        match pv with
        | some v => Frac.add sc3 (Frac.mul v ⟨100, 1⟩)
        | none => sc3
      some { text := jsTrim pt, value := pv, score := sc4, selector := sel }
    else none

/-- Keep-before relation of the descending score sort of the eBay path. -/
def ebayKeepDesc (y x : EbayCand) : Bool := Frac.leB x.score y.score

/-- The eBay selector price path: gather candidates over every
(selector, element) pair in iteration order, sort descending by score,
take the best text. -/
def ebayPrice (inputs : List (String × EbayEl)) : Option String :=
  let cands := inputs.filterMap (fun se => ebayStep se.1 se.2)
  if cands.isEmpty then none
  else (jsSortBy ebayKeepDesc cands).head?.map (·.text)

/-! ### Generic selector price path (content.js 1446-1509) and the eBay
fallback block (content.js 1054-1115), identical up to score weights -/

/-- A scored candidate of the generic selector price path. -/
structure GenCand where
  text : String
  value : Option Frac
  score : Int
deriving DecidableEq

/-- The per-element candidate step of the generic selector price path:
skip short texts, take every match of the decimal-priority regex, gate by
plausibility, and score by decimal presence, value range and length. -/
def genericStep (wDec wRange wLen : Int) (fullText : String) : List GenCand :=
  if (jsTrim fullText).length < 3 then []
  else
    (matchAllDec fullText).filterMap (fun m =>
      let priceText := jsTrim m
      let v := val priceText
      if vGeB v lowBound && vLeB v highBound then
        let sc1 : Int := if endsWithDec priceText then wDec else 0
        let sc2 := if vGeB v ⟨5, 1⟩ && vLeB v ⟨1000, 1⟩ then sc1 + wRange else sc1
        some { text := priceText, value := v, score := sc2 + (priceText.length : Int) * wLen }
      else none)

/-- Keep-before relation of the descending score sort of the generic
path. -/
def genKeepDesc (y x : GenCand) : Bool := decide (x.score ≤ y.score)

/-- Core of the generic selector price path, parameterised by the three
score weights (10000/5000/100 on the generic path, 1000/500/10 on the
eBay fallback block). -/
def genericPriceCore (wDec wRange wLen : Int) (texts : List String) : Option String :=
  let cands := (texts.map (genericStep wDec wRange wLen)).flatten
  if cands.isEmpty then none
  else ((jsSortBy genKeepDesc cands).head?).map (·.text)

/-- The generic selector price path (content.js 1446-1509). -/
def genericPrice (texts : List String) : Option String :=
  genericPriceCore 10000 5000 100 texts

/-- The eBay fallback price block (content.js 1054-1115). -/
def ebayFallbackPrice (texts : List String) : Option String :=
  genericPriceCore 1000 500 10 texts

/-! ### Abercrombie price resolution (content.js 1168-1391) -/

/-- Step 2c of the Abercrombie price resolution (content.js 1243-1268):
when the price wrapper text holds two or more tokens, sort them ascending
by value and take the lowest as the discount (flagging `isDiscounted`
only when the comparison is strict); a single token is taken as-is.
Returns the chosen text and the `isDiscounted` flag. -/
def abercrombieWrapperPrice (wrapperText : String) : Option (String × Bool) :=
  let allPrices := matchAllFull wrapperText
  if 2 ≤ allPrices.length then
    let prices := allPrices.map (fun p => ({ text := jsTrim p, value := val p } : Tok))
    match jsSortBy tokKeepAsc prices with
    | p0 :: p1 :: _ =>
      if vLtOpt p0.value p1.value then some (p0.text, true) else some (p0.text, false)
    | _ => none
  else if allPrices.length = 1 then
    match allPrices.head? with
    | some p => some (jsTrim p, false)
    | none => none
  else none

/-- A multi-price wrapper candidate of the scanner
(selector-finder.js 377-423): the discount price, the `isDiscount` flag,
and the original price named in the note string. -/
structure WrapperCand where
  price : String
  isDiscount : Bool
  originalText : String
deriving DecidableEq

/-- The scanner multi-price wrapper handler (selector-finder.js
377-423): when a visible wrapper's text holds two or more price tokens,
sort ascending by value; the lowest is the discount candidate
(`isDiscount: true`), the highest is reported as the original; gated by
the plausibility bounds on the discount value. -/
def scanWrapperStep (text : String) : Option WrapperCand :=
  if text.isEmpty || 200 < text.length then none
  else
    let allPrices := matchAllFull text
    if 2 ≤ allPrices.length then
      let prices := allPrices.map (fun p => ({ text := jsTrim p, value := val p } : Tok))
      let sorted := jsSortBy tokKeepAsc prices
      match sorted.head?, sorted.getLast? with
      | some p0, some plast =>
        if vGeB p0.value lowBound && vLeB p0.value highBound then
          some { price := p0.text, isDiscount := true, originalText := plast.text }
        else none
      | _, _ => none
    else none

/-- The post-resolution discount validation pass (content.js 1325-1349):
when a discount was flagged, re-scan the enclosing price container and
replace the chosen price by the lowest-valued container token if that is
strictly lower. -/
def abercrombieValidate (priceText : String) (isDiscounted : Bool)
    (containerText : Option String) : String :=
  if !priceText.isEmpty && isDiscounted then
    match containerText with
    | some ct =>
      let allPrices := matchAllFull ct
      if 2 ≤ allPrices.length then
        let prices := allPrices.map (fun p => ({ text := jsTrim p, value := val p } : Tok))
        let currentValue := val priceText
        match (jsSortBy tokKeepAsc prices).head? with
        | some p0 => if vLtOpt p0.value currentValue then p0.text else priceText
        | none => priceText
      else priceText
    | none => priceText
  else priceText

/-- METHOD 3 of the Abercrombie price extraction (content.js 1362-1391):
walk the selector elements, take the token-parser result or the first
full-regex match of the trimmed text, and store the first plausible
price (trimmed). `method3Text` is the per-element candidate text. -/
def method3Text (el : Elem) (tc : String) : String :=
  match extractPriceFromElement el with
  | some p => p
  | none =>
    if tc.isEmpty then ""
    else
      let t := jsTrim tc
      match matchFull t.data with
      | some lex => String.mk lex
      | none => t

def method3First : List (Elem × String) → Option String
  | [] => none
  | (el, tc) :: rest =>
    let pt : String := method3Text el tc
    if !pt.isEmpty && (matchFull pt.data).isSome then
      if vGeB (val pt) lowBound && vLeB (val pt) highBound then some (jsTrim pt)
      else method3First rest
    else method3First rest

/-- The Abercrombie price store (content.js 1351-1391): the resolved
price of methods 1-2 is stored only when plausible (carrying the
`isDiscounted` flag), else METHOD 3 runs. -/
def abercrombiePriceStore (resolved : Option String) (isDiscounted : Bool)
    (method3Els : List (Elem × String)) : Option (String × Bool) :=
  let stored : Option (String × Bool) :=
    match resolved with
    | some pt =>
      if vGeB (val pt) lowBound && vLeB (val pt) highBound then
        some (pt, isDiscounted)
      else none
    | none => none
  match stored with
  | some r => some r
  | none => (method3First method3Els).map (fun p => (p, false))

/-! ### Amazon selector price path (content.js 735-802) -/

/-- An Amazon price element: the element for the token parser, its text
content, the `aria-label`/`title` fallback, and the text of the
`.a-price-fraction` cents element reached through `closest('.a-price')`
(if both exist). -/
structure AmazonEl where
  el : Elem
  textContent : String
  ariaOrTitle : Option String
  fraction : Option String
deriving DecidableEq

/-- `priceText.replace(/^\s*Price:\s*/i, '')`. -/
def stripPricePrefix (s : String) : String :=
  let ws := s.data.dropWhile Char.isWhitespace
  if (ws.take 6).map Char.toLower = "price:".data then
    String.mk ((ws.drop 6).dropWhile Char.isWhitespace)
  else s

/-- `priceText.replace(/\s*each\s*$/i, '')`. -/
def stripEachSuffix (s : String) : String :=
  let rev := s.data.reverse.dropWhile Char.isWhitespace
  if (rev.take 4).map Char.toLower = "hcae".data then
    String.mk (((rev.drop 4).dropWhile Char.isWhitespace).reverse)
  else s

/-- The per-element step of the Amazon price path (content.js 740-801):
token parser, then text/aria fallback with regex match or affix
stripping, then the `.a-price-fraction` cents completion.  No
plausibility filter appears on this path. -/
def amazonStep (e : AmazonEl) : Option String :=
  let pt1 : Option String :=
    match extractPriceFromElement e.el with
    | some p => some p
    | none =>
      let t0 := if (jsTrim e.textContent).isEmpty then e.ariaOrTitle else some e.textContent
      match t0 with
      | none => none
      | some t0s =>
        if t0s.isEmpty then none
        else
          let t := jsTrim t0s
          match matchFull t.data with
          | some lex => some (String.mk lex)
          | none => some (stripEachSuffix (stripPricePrefix t))
  match pt1 with
  | none => none
  | some pt =>
    if (jsTrim pt).isEmpty then none
    else
      let pt2 :=
        match e.fraction with
        | some fr =>
          let frT := jsTrim fr
          if frT.isEmpty then pt
          else if endsWithDot pt then pt ++ frT
          else if !pt.data.contains '.' then pt ++ "." ++ frT
          else pt
        | none => pt
      if (jsTrim pt2).isEmpty then none else some (jsTrim pt2)

/-- The Amazon selector price path: the first element (in selector order)
whose step yields a price wins. -/
def amazonPrice : List AmazonEl → Option String
  | [] => none
  | e :: rest =>
    match amazonStep e with
    | some p => some p
    | none => amazonPrice rest

/-- Shape of a scanner lexeme: currency symbol, optional whitespace,
then a non-empty digit run (followed by anything). -/
def LexShape (lex : List Char) : Prop :=
  ∃ c sp d rest2, lex = c :: (sp ++ (d ++ rest2)) ∧ isCurrency c = true ∧
    (∀ x ∈ sp, x.isWhitespace = true) ∧ d ≠ [] ∧ (∀ x ∈ d, x.isDigit = true)

/-- Shape of a core lexeme: a non-empty digit run followed by anything. -/
def CoreShape (lex : List Char) : Prop :=
  ∃ d rest2, lex = d ++ rest2 ∧ d ≠ [] ∧ (∀ x ∈ d, x.isDigit = true)

/-- Pointwise dominance of signal sets: every signal present in `s` is
also present in `t` (turning a single signal on is an instance). -/
def sigLe (s t : SignalSet) : Prop :=
  (s.schemaProduct = true → t.schemaProduct = true) ∧
  (s.productJsonLd = true → t.productJsonLd = true) ∧
  (s.productAttrs = true → t.productAttrs = true) ∧
  (s.priceElements = true → t.priceElements = true) ∧
  (s.addToCart = true → t.addToCart = true) ∧
  (s.productImages = true → t.productImages = true) ∧
  (s.productTitle = true → t.productTitle = true) ∧
  (s.quantitySelector = true → t.quantitySelector = true) ∧
  (s.reviews = true → t.reviews = true) ∧
  (s.variants = true → t.variants = true)

/-! ### Character and trimming lemmas -/

theorem Frac.leB_total (a b : Frac) : Frac.leB a b = true ∨ Frac.leB b a = true := by
  simp only [Frac.leB, decide_eq_true_eq]
  omega

theorem Frac.leB_trans {a b c : Frac} (hb : Frac.Wf b) :
    Frac.leB a b = true → Frac.leB b c = true → Frac.leB a c = true := by
  simp only [Frac.leB, decide_eq_true_eq, Frac.Wf] at *
  intro h1 h2
  have hbden : (0 : Int) < (b.den : Int) := by exact_mod_cast hb
  have h1c := mul_le_mul_of_nonneg_right h1 (Int.ofNat_nonneg c.den)
  have h2a := mul_le_mul_of_nonneg_right h2 (Int.ofNat_nonneg a.den)
  have key : a.num * (c.den : Int) * (b.den : Int) ≤ c.num * (a.den : Int) * (b.den : Int) := by
    nlinarith
  exact le_of_mul_le_mul_right key hbden

theorem Frac.ltB_of_not_leB {a b : Frac} (h : Frac.leB a b = false) :
    Frac.ltB b a = true := by
  simp only [Frac.leB, decide_eq_false_iff_not, not_le] at h
  simp only [Frac.ltB, decide_eq_true_eq]
  omega

theorem Frac.leB_of_ltB {a b : Frac} (h : Frac.ltB a b = true) : Frac.leB a b = true := by
  simp only [Frac.ltB, decide_eq_true_eq] at h
  simp only [Frac.leB, decide_eq_true_eq]
  omega

theorem mem_insertBy {α : Type} (r : α → α → Bool) (x : α) (l : List α) (a : α) :
    a ∈ insertBy r x l ↔ a = x ∨ a ∈ l := by
  induction l with
  | nil => simp [insertBy]
  | cons y ys ih =>
    simp only [insertBy]
    by_cases h : r y x = true
    · rw [if_pos h]; simp only [List.mem_cons, ih]; tauto
    · rw [if_neg h]; simp only [List.mem_cons]

theorem mem_jsSortBy {α : Type} (r : α → α → Bool) (l : List α) (a : α) :
    a ∈ jsSortBy r l ↔ a ∈ l := by
  have aux : ∀ (l acc : List α),
      a ∈ l.foldl (fun acc x => insertBy r x acc) acc ↔ a ∈ acc ∨ a ∈ l := by
    intro l
    induction l with
    | nil => intro acc; simp
    | cons y ys ih =>
      intro acc
      simp only [List.foldl_cons, ih, mem_insertBy, List.mem_cons]
      tauto
  simpa using aux l []

theorem pairwise_insertBy {α : Type} (r : α → α → Bool) (x : α) (l : List α)
    (htot : ∀ a ∈ l, r a x = true ∨ r x a = true)
    (htrans : ∀ a ∈ l, ∀ b ∈ l, r x a = true → r a b = true → r x b = true)
    (hs : l.Pairwise (fun a b => r a b = true)) :
    (insertBy r x l).Pairwise (fun a b => r a b = true) := by
  induction l with
  | nil => simp [insertBy]
  | cons y ys ih =>
    simp only [insertBy]
    rcases List.pairwise_cons.mp hs with ⟨hy, hys⟩
    by_cases h : r y x = true
    · simp only [h, if_true]
      refine List.pairwise_cons.mpr ⟨?_, ?_⟩
      · intro z hz
        rcases (mem_insertBy r x ys z).mp hz with rfl | hz2
        · exact h
        · exact hy z hz2
      · exact ih (fun a ha => htot a (List.mem_cons_of_mem _ ha))
          (fun a ha b hb => htrans a (List.mem_cons_of_mem _ ha) b (List.mem_cons_of_mem _ hb))
          hys
    · simp only [h, if_false]
      have hxy : r x y = true := by
        rcases htot y (List.mem_cons_self _ _) with h1 | h1
        · exact absurd h1 h
        · exact h1
      refine List.pairwise_cons.mpr ⟨?_, hs⟩
      intro z hz
      rcases List.mem_cons.mp hz with rfl | hz2
      · exact hxy
      · exact htrans y (List.mem_cons_self _ _) z (List.mem_cons_of_mem _ hz2) hxy (hy z hz2)

theorem pairwise_jsSortBy {α : Type} (r : α → α → Bool) (l : List α)
    (htot : ∀ a ∈ l, ∀ b ∈ l, r a b = true ∨ r b a = true)
    (htrans : ∀ a ∈ l, ∀ b ∈ l, ∀ c ∈ l, r a b = true → r b c = true → r a c = true) :
    (jsSortBy r l).Pairwise (fun a b => r a b = true) := by
  have aux : ∀ (todo acc : List α), (∀ a ∈ todo, a ∈ l) → (∀ a ∈ acc, a ∈ l) →
      acc.Pairwise (fun a b => r a b = true) →
      (todo.foldl (fun acc x => insertBy r x acc) acc).Pairwise (fun a b => r a b = true) := by
    intro todo
    induction todo with
    | nil => intro acc _ _ hp; simpa using hp
    | cons y ys ih =>
      intro acc hT hA hp
      simp only [List.foldl_cons]
      have hy : y ∈ l := hT y (List.mem_cons_self _ _)
      refine ih _ (fun a ha => hT a (List.mem_cons_of_mem _ ha)) ?_ ?_
      · intro a ha
        rcases (mem_insertBy r y acc a).mp ha with rfl | ha2
        · exact hy
        · exact hA a ha2
      · exact pairwise_insertBy r y acc
          (fun a ha => htot a (hA a ha) y hy)
          (fun a ha b hb => htrans y hy a (hA a ha) b (hA b hb))
          hp
  exact aux l [] (fun a ha => ha) (by simp) (by simp)

/-- The head of a stably sorted list is related to every element of the
input list (for a relation total and transitive on the input). -/
theorem head_jsSortBy {α : Type} (r : α → α → Bool) (l : List α) (h : α) (t : List α)
    (htot : ∀ a ∈ l, ∀ b ∈ l, r a b = true ∨ r b a = true)
    (htrans : ∀ a ∈ l, ∀ b ∈ l, ∀ c ∈ l, r a b = true → r b c = true → r a c = true)
    (heq : jsSortBy r l = h :: t) :
    h ∈ l ∧ ∀ y ∈ l, r h y = true := by
  have hmem : h ∈ l := by
    have : h ∈ jsSortBy r l := by rw [heq]; exact List.mem_cons_self _ _
    exact (mem_jsSortBy r l h).mp this
  refine ⟨hmem, ?_⟩
  have hp := pairwise_jsSortBy r l htot htrans
  rw [heq] at hp
  rcases List.pairwise_cons.mp hp with ⟨hhead, _⟩
  intro y hy
  have : y ∈ jsSortBy r l := (mem_jsSortBy r l y).mpr hy
  rw [heq] at this
  rcases List.mem_cons.mp this with rfl | h2
  · rcases htot y hmem y hmem with h1 | h1 <;> exact h1
  · exact hhead y h2


theorem digit_not_ws {c : Char} (h : c.isDigit = true) : c.isWhitespace = false := by
  have key : ¬(c = ' ' ∨ c = '\t' ∨ c = '\r' ∨ c = '\n') := by
    rintro (rfl | rfl | rfl | rfl) <;> simp [Char.isDigit] at h
  cases hw : c.isWhitespace
  · rfl
  · exfalso
    apply key
    simp only [Char.isWhitespace, Bool.or_eq_true, decide_eq_true_eq] at hw
    tauto

theorem currency_not_ws {c : Char} (h : isCurrency c = true) : c.isWhitespace = false := by
  simp only [isCurrency, Bool.or_eq_true, decide_eq_true_eq] at h
  rcases h with ((rfl | rfl) | rfl) | rfl <;> decide

theorem currency_not_digit {c : Char} (h : isCurrency c = true) : c.isDigit = false := by
  simp only [isCurrency, Bool.or_eq_true, decide_eq_true_eq] at h
  rcases h with ((rfl | rfl) | rfl) | rfl <;> decide

theorem dropWhile_eq_self_of {l : List Char}
    (h : ∀ x ∈ l, x.isWhitespace = false) : l.dropWhile Char.isWhitespace = l := by
  cases l with
  | nil => rfl
  | cons a as => simp [List.dropWhile, h a (List.mem_cons_self _ _)]

theorem trimList_eq_self {l : List Char}
    (h : ∀ x ∈ l, x.isWhitespace = false) : trimList l = l := by
  unfold trimList
  rw [dropWhile_eq_self_of h, dropWhile_eq_self_of ?hrev, List.reverse_reverse]
  case hrev =>
    intro x hx
    exact h x (List.mem_reverse.mp hx)

theorem span_exact {p : Char → Bool} : ∀ (d r : List Char), (∀ x ∈ d, p x = true) →
    (∀ x, r.head? = some x → p x = false) →
    (d ++ r).takeWhile p = d ∧ (d ++ r).dropWhile p = r := by
  intro d
  induction d with
  | nil =>
    intro r _ hr
    cases r with
    | nil => simp
    | cons x xs => simp [List.takeWhile, List.dropWhile, hr x rfl]
  | cons a as ih =>
    intro r hd hr
    have ha := hd a (List.mem_cons_self _ _)
    have ⟨iht, ihd⟩ := ih r (fun x hx => hd x (List.mem_cons_of_mem _ hx)) hr
    simp [List.takeWhile, List.dropWhile, ha, iht, ihd]

/-- `matchCurrencyNum` on a currency symbol directly followed by digits. -/
theorem matchCurrencyNum_exact {c : Char} (hc : isCurrency c = true)
    {d r : List Char} (hd : d ≠ []) (hdd : ∀ x ∈ d, x.isDigit = true)
    (hr : ∀ x, r.head? = some x → x.isDigit = false) :
    matchCurrencyNum (c :: (d ++ r)) = some (c, d, c :: d) := by
  obtain ⟨a, as, rfl⟩ : ∃ a as, d = a :: as := by
    cases d with
    | nil => exact absurd rfl hd
    | cons a as => exact ⟨a, as, rfl⟩
  have ha : a.isDigit = true := hdd a (List.mem_cons_self _ _)
  have haw : a.isWhitespace = false := digit_not_ws ha
  have ⟨ht, _⟩ := span_exact as r (fun x hx => hdd x (List.mem_cons_of_mem _ hx)) hr
  simp [matchCurrencyNum, hc, List.cons_append, haw, List.takeWhile_cons, ha, ht]

/-! ### Token shape: every lexeme the price scanners produce starts with
a currency symbol, optional whitespace and a non-empty digit run, so its
parsed value is never `NaN` -/

theorem takeWhile_digits (l : List Char) :
    ∀ x ∈ l.takeWhile Char.isDigit, x.isDigit = true := by
  intro x hx
  exact List.mem_takeWhile_imp hx

theorem fullCore_shape {l lex r : List Char} (h : fullCore l = some (lex, r)) :
    CoreShape lex := by
  have hdigs := takeWhile_digits l
  simp only [fullCore] at h
  split at h
  · exact absurd h (by simp)
  next hne =>
    have hne2 : l.takeWhile Char.isDigit ≠ [] := by
      intro hnil
      simp [hnil] at hne
    split at h
    next s r2 heq =>
      split at h
      · split at h
        · obtain ⟨rfl, rfl⟩ := Prod.mk.injEq _ _ _ _ ▸ (Option.some.inj h)
          exact ⟨_, [], (List.append_nil _).symm, hne2, hdigs⟩
        · obtain ⟨rfl, rfl⟩ := Prod.mk.injEq _ _ _ _ ▸ (Option.some.inj h)
          exact ⟨_, _, rfl, hne2, hdigs⟩
      · obtain ⟨rfl, rfl⟩ := Prod.mk.injEq _ _ _ _ ▸ (Option.some.inj h)
        exact ⟨_, [], (List.append_nil _).symm, hne2, hdigs⟩
    next heq =>
      obtain ⟨rfl, rfl⟩ := Prod.mk.injEq _ _ _ _ ▸ (Option.some.inj h)
      exact ⟨_, [], (List.append_nil _).symm, hne2, hdigs⟩

theorem ebayCore_shape {l lex r : List Char} (h : ebayCore l = some (lex, r)) :
    CoreShape lex := by
  have hdigs : ∀ x ∈ (l.takeWhile Char.isDigit).take 3, x.isDigit = true :=
    fun x hx => takeWhile_digits l x (List.mem_of_mem_take hx)
  simp only [ebayCore] at h
  split at h
  · exact absurd h (by simp)
  next hne =>
    have hne2 : (l.takeWhile Char.isDigit).take 3 ≠ [] := by
      intro hnil
      simp [hnil] at hne
    obtain ⟨rfl, rfl⟩ := Prod.mk.injEq _ _ _ _ ▸ (Option.some.inj h)
    exact ⟨_, _, (List.append_assoc _ _ _), hne2, hdigs⟩

theorem decCore_shape {l lex r : List Char} (h : decCore l = some (lex, r)) :
    CoreShape lex := by
  have hdigs := takeWhile_digits l
  simp only [decCore] at h
  split at h
  · exact absurd h (by simp)
  next hne =>
    have hne2 : l.takeWhile Char.isDigit ≠ [] := by
      intro hnil
      simp [hnil] at hne
    split at h <;> try (split at h) <;> try (split at h)
    all_goals
      first
      | (obtain ⟨rfl, rfl⟩ := Prod.mk.injEq _ _ _ _ ▸ (Option.some.inj h)
         first
         | exact ⟨_, _, rfl, hne2, hdigs⟩
         | exact ⟨_, [], (List.append_nil _).symm, hne2, hdigs⟩)

theorem wsAttempt_shape {core : List Char → Option (List Char × List Char)}
    (hcore : ∀ {l lex r}, core l = some (lex, r) → CoreShape lex)
    {c : Char} (hc : isCurrency c = true) {rest lex r : List Char}
    (h : wsAttempt core c rest = some (lex, r)) : LexShape lex := by
  unfold wsAttempt at h
  split at h
  · exact absurd h (by simp)
  next d rest2 =>
    split at h
    next hws =>
      split at h
      next lex2 r2 heq =>
        obtain ⟨rfl, rfl⟩ := Prod.mk.injEq _ _ _ _ ▸ (Option.some.inj h)
        obtain ⟨dd, rr, rfl, hne, hdd⟩ := hcore heq
        exact ⟨c, [d], dd, rr, by simp, hc, by simpa using hws, hne, hdd⟩
      · exact absurd h (by simp)
    next hws =>
      split at h
      next lex2 r2 heq =>
        obtain ⟨rfl, rfl⟩ := Prod.mk.injEq _ _ _ _ ▸ (Option.some.inj h)
        obtain ⟨dd, rr, rfl, hne, hdd⟩ := hcore heq
        exact ⟨c, [], dd, rr, by simp, hc, by simp, hne, hdd⟩
      · exact absurd h (by simp)

theorem scanT_shape {att : Char → List Char → Option (List Char × List Char)}
    (hatt : ∀ {c rest lex r}, isCurrency c = true → att c rest = some (lex, r) → LexShape lex) :
    ∀ {cs lex r}, scanT att cs = some (lex, r) → LexShape lex := by
  intro cs
  induction cs with
  | nil => intro lex r h; exact absurd h (by simp [scanT])
  | cons c rest ih =>
    intro lex r h
    unfold scanT at h
    split at h
    next hc =>
      split at h
      next lex2 r2 heq =>
        obtain ⟨rfl, rfl⟩ := Prod.mk.injEq _ _ _ _ ▸ (Option.some.inj h)
        exact hatt hc heq
      next => exact ih h
    next => exact ih h

theorem matchAllAux_shape {m : List Char → Option (List Char × List Char)}
    (hm : ∀ {cs lex r}, m cs = some (lex, r) → LexShape lex) :
    ∀ (fuel : Nat) (cs : List Char) (tok : String),
      tok ∈ matchAllAux m fuel cs → ∃ lex, tok = String.mk lex ∧ LexShape lex := by
  intro fuel
  induction fuel with
  | zero => intro cs tok h; exact absurd h (by simp [matchAllAux])
  | succ n ih =>
    intro cs tok h
    cases cs with
    | nil => exact absurd h (by simp [matchAllAux])
    | cons c rest =>
      unfold matchAllAux at h
      split at h
      next lex r heq =>
        rcases List.mem_cons.mp h with rfl | h2
        · exact ⟨lex, rfl, hm heq⟩
        · exact ih r tok h2
      next => exact absurd h (by simp)

/-- Every token of `matchAllFull` has the scanner lexeme shape. -/
theorem matchAllFull_shape {s : String} {tok : String} (h : tok ∈ matchAllFull s) :
    ∃ lex, tok = String.mk lex ∧ LexShape lex :=
  matchAllAux_shape (fun heq => scanT_shape (fun hc h2 => wsAttempt_shape fullCore_shape hc h2) heq)
    _ _ _ h

/-- Every token of `matchAllEbay` has the scanner lexeme shape. -/
theorem matchAllEbay_shape {s : String} {tok : String} (h : tok ∈ matchAllEbay s) :
    ∃ lex, tok = String.mk lex ∧ LexShape lex :=
  matchAllAux_shape (fun heq => scanT_shape (fun hc h2 => wsAttempt_shape ebayCore_shape hc h2) heq)
    _ _ _ h

/-- Every token of `matchAllDec` has the scanner lexeme shape. -/
theorem matchAllDec_shape {s : String} {tok : String} (h : tok ∈ matchAllDec s) :
    ∃ lex, tok = String.mk lex ∧ LexShape lex :=
  matchAllAux_shape (fun heq => scanT_shape (fun hc h2 => wsAttempt_shape decCore_shape hc h2) heq)
    _ _ _ h

/-! ### From lexeme shape to a parsed (non-NaN) value -/

theorem digit_not_currency {c : Char} (h : c.isDigit = true) : isCurrency c = false := by
  cases hc : isCurrency c
  · rfl
  · exact absurd h (by
      simp only [isCurrency, Bool.or_eq_true, decide_eq_true_eq] at hc
      rcases hc with ((rfl | rfl) | rfl) | rfl <;> decide)

theorem keep_digit {x : Char} (h : x.isDigit = true) :
    (!(isCurrency x || x.isWhitespace || x = ',')) = true := by
  have h1 := digit_not_currency h
  have h2 := digit_not_ws h
  have h3 : (x = ',') = False := by
    by_cases hx : x = ','
    · subst hx; exact absurd h (by decide)
    · simpa using hx
  simp [h1, h2, h3]

theorem parseFloatR_isSome_cons_digit {x : Char} {rest : List Char}
    (h : x.isDigit = true) : (parseFloatR (x :: rest)).isSome = true := by
  simp only [parseFloatR]
  have hne : ((x :: rest).takeWhile Char.isDigit).isEmpty = false := by
    simp [List.takeWhile_cons, h]
  split
  · simp [hne]
  · simp [hne]

theorem parseFloatR_den_pos {cs : List Char} {v : Frac}
    (h : parseFloatR cs = some v) : 0 < v.den := by
  simp only [parseFloatR] at h
  split at h
  · split at h
    · exact absurd h (by simp)
    · obtain rfl := Option.some.inj h
      exact Nat.pos_pow_of_pos _ (by norm_num)
  · split at h
    · exact absurd h (by simp)
    · obtain rfl := Option.some.inj h
      exact Nat.one_pos

/-- The parsed value of a shaped lexeme is a number (never `NaN`). -/
theorem val_isSome_of_LexShape {lex : List Char} (h : LexShape lex) :
    (val (String.mk lex)).isSome = true := by
  obtain ⟨c, sp, d, rest2, rfl, hc, hsp, hd, hdd⟩ := h
  obtain ⟨a, as, rfl⟩ : ∃ a as, d = a :: as := by
    cases d with
    | nil => exact absurd rfl hd
    | cons a as => exact ⟨a, as, rfl⟩
  show (parseFloatR (stripPrice _)).isSome = true
  have hstrip : stripPrice (c :: (sp ++ (a :: as ++ rest2))) =
      a :: (as.filter (fun x => !(isCurrency x || x.isWhitespace || x = ',')) ++
        rest2.filter (fun x => !(isCurrency x || x.isWhitespace || x = ','))) := by
    unfold stripPrice
    rw [List.filter_cons]
    have hcK : (!(isCurrency c || c.isWhitespace || c = ',')) = false := by
      simp [hc]
    rw [hcK]
    simp only [List.filter_append]
    have hspK : sp.filter (fun x => !(isCurrency x || x.isWhitespace || x = ',')) = [] := by
      rw [List.filter_eq_nil_iff]
      intro x hx
      simp [hsp x hx]
    rw [hspK]
    rw [List.filter_cons]
    rw [keep_digit (hdd a (List.mem_cons_self _ _))]
    simp [List.filter_append]
  rw [hstrip]
  exact parseFloatR_isSome_cons_digit (hdd a (List.mem_cons_self _ _))

/-- Trimming never changes a parsed price value: the stripped character
set contains all whitespace. -/
theorem filter_dropWhile {p q : Char → Bool} (h : ∀ x, q x = true → p x = false) :
    ∀ (l : List Char), (l.dropWhile q).filter p = l.filter p := by
  intro l
  induction l with
  | nil => rfl
  | cons a as ih =>
    by_cases ha : q a = true
    · rw [List.dropWhile_cons_of_pos ha, ih, List.filter_cons, h a ha]
      simp
    · rw [List.dropWhile_cons_of_neg (by simpa using ha)]

theorem stripPrice_trimList (l : List Char) : stripPrice (trimList l) = stripPrice l := by
  have hwk : ∀ x : Char, x.isWhitespace = true →
      (!(isCurrency x || x.isWhitespace || x = ',')) = false := by
    intro x hx
    simp [hx]
  unfold trimList stripPrice
  rw [List.filter_reverse, filter_dropWhile hwk, List.filter_reverse,
    filter_dropWhile hwk, List.reverse_reverse]

theorem val_jsTrim (s : String) : val (jsTrim s) = val s := by
  show parseFloatR (stripPrice (trimList s.data)) = parseFloatR (stripPrice s.data)
  rw [stripPrice_trimList]

/-! ### Claims C1 and C10: the superscript price parser -/

/-- C1: for an element whose text is a currency symbol followed by a
two-digit integer and which has a superscript descendant whose entire
trimmed text is a one-to-three digit run, `extractPriceFromElement`
returns the currency symbol, the main digits, a dot, and the digit run
zero-padded to two digits (the first matching descendant in document
order supplies the run), so that a price rendered as main digits plus
superscript cents is reassembled with a decimal point. -/
theorem c1_superscript_cents (c a b : Char) (hc : isCurrency c = true)
    (ha : a.isDigit = true) (hb : b.isDigit = true)
    (sups : List String) (sib : Option Sib) (s : String)
    (hfind : sups.find? (fun t => isDigitRun13 (jsTrim t)) = some s) :
    extractPriceFromElement ⟨String.mk [c, a, b], sups, sib⟩ =
      some (String.mk (c :: a :: b :: '.' :: pad2 (jsTrim s).data)) := by
  have htrim : trimList [c, a, b] = [c, a, b] := by
    apply trimList_eq_self
    intro x hx
    rcases List.mem_cons.mp hx with rfl | hx2
    · exact currency_not_ws hc
    rcases List.mem_cons.mp hx2 with rfl | hx3
    · exact digit_not_ws ha
    rcases List.mem_cons.mp hx3 with rfl | hx4
    · exact digit_not_ws hb
    · simp at hx4
  have hmatch : matchCurrencyNum [c, a, b] = some (c, [a, b], [c, a, b]) := by
    have h := @matchCurrencyNum_exact c hc [a, b] [] (by simp)
      (by
        intro x hx
        rcases List.mem_cons.mp hx with rfl | hx2
        · exact ha
        · simp at hx2; subst hx2; exact hb)
      (by intro x hx; simp at hx)
    simpa using h
  have hdata : (jsTrim (String.mk [c, a, b])).data = [c, a, b] := by
    simp [jsTrim, htrim]
  unfold extractPriceFromElement
  dsimp only
  rw [hdata, hmatch]
  simp [hfind]

/-- C1 witness: the canonical instance of the claim evaluated on a
concrete element. -/
theorem c1_superscript_cents_witness :
    extractPriceFromElement ⟨"$29", ["99"], none⟩ = some "$29.99" := by
  have h := c1_superscript_cents '$' '2' '9' (by decide) (by decide) (by decide)
    ["99"] none "99" (by decide)
  exact h.trans (by decide)

/-- C10: for an element whose text already carries a decimal price (a
currency symbol, integer digits, a dot, fractional digits) but which has
no superscript descendant carrying a digit run and no superscript next
sibling, `extractPriceFromElement` returns only the currency symbol and
the integer digits, silently dropping the decimal part. -/
theorem c10_decimal_dropped (c : Char) (hc : isCurrency c = true)
    (d1 d2 : List Char) (h1 : d1 ≠ []) (h1d : ∀ x ∈ d1, x.isDigit = true)
    (h2d : ∀ x ∈ d2, x.isDigit = true)
    (sups : List String) (hsups : ∀ t ∈ sups, isDigitRun13 (jsTrim t) = false)
    (sib : Option Sib)
    (hsib : ∀ s, sib = some s → (isDigitRun13 (jsTrim s.text) && s.isSup) = false) :
    extractPriceFromElement ⟨String.mk (c :: (d1 ++ '.' :: d2)), sups, sib⟩ =
      some (String.mk (c :: d1)) := by
  have htrim : trimList (c :: (d1 ++ '.' :: d2)) = c :: (d1 ++ '.' :: d2) := by
    apply trimList_eq_self
    intro x hx
    rcases List.mem_cons.mp hx with rfl | hx2
    · exact currency_not_ws hc
    rcases List.mem_append.mp hx2 with hx3 | hx4
    · exact digit_not_ws (h1d x hx3)
    rcases List.mem_cons.mp hx4 with rfl | hx5
    · decide
    · exact digit_not_ws (h2d x hx5)
  have hmatch : matchCurrencyNum (c :: (d1 ++ '.' :: d2)) = some (c, d1, c :: d1) :=
    @matchCurrencyNum_exact c hc d1 ('.' :: d2) h1 h1d
      (by intro x hx; simp at hx; subst hx; decide)
  have hfind : sups.find? (fun t => isDigitRun13 (jsTrim t)) = none :=
    List.find?_eq_none.mpr (fun t ht => by simp [hsups t ht])
  have hdata : (jsTrim (String.mk (c :: (d1 ++ '.' :: d2)))).data = c :: (d1 ++ '.' :: d2) := by
    simp only [jsTrim, htrim]
  unfold extractPriceFromElement
  dsimp only
  rw [hdata, hmatch]
  cases sib with
  | none => simp only [hfind]
  | some sb =>
    have hsb := hsib sb rfl
    simp only [hfind, hsb, Bool.false_eq_true, if_false]

/-- C10 witness: the concrete instance with text carrying cents. -/
theorem c10_decimal_dropped_witness :
    extractPriceFromElement ⟨"$29.99", [], none⟩ = some "$29" := by
  have h := c10_decimal_dropped '$' (by decide) ['2', '9'] ['9', '9'] (by decide)
    (by decide) (by decide)
    [] (by intro t ht; simp at ht) none (by intro s hs; simp at hs)
  exact h.trans (by decide)

/-! ### Claims C5 and C6: the product-page classifier -/

/-- C5 counterexample: a page carrying every signal scores 27, and the
code clamps the confidence to 100, while the claimed formula
`round(100 * score / 20)` gives 135 — so the claim's confidence formula
fails on this page. -/
theorem c5_confidence_counterexample :
    (detectProductPage ⟨true, true, true, true, true, true, true, true, true, true⟩).confidence ≠
      Frac.roundHalfUp
        ⟨((detectProductPage
            ⟨true, true, true, true, true, true, true, true, true, true⟩).score : Int) * 100, 20⟩ := by
  decide

/-- `Math.round((2a+b)/(2b))`-style rounding on a non-negative fraction
computes a natural-number division. -/
theorem roundHalfUp_nonneg (a b : Nat) :
    Frac.roundHalfUp ⟨(a : Int), b⟩ = (((2 * a + b) / (2 * b) : Nat) : Int) := by
  show Int.fdiv (2 * (a : Int) + (b : Int)) (2 * (b : Int)) = (((2 * a + b) / (2 * b) : Nat) : Int)
  rw [Int.fdiv_eq_ediv _ (by omega), Int.ofNat_tdiv]
  push_cast
  ring_nf
  rw [Int.tdiv_eq_ediv (by positivity) (by positivity)]

/-- C5 (amended): `detectProductPage` reports a product page exactly when
the aggregate score is at least 6, and its confidence is
`round(min(100 * score / 20, 100))`, i.e. `min(5 * score, 100)` — the
clamp matters because the weights sum to 27; a page whose only signal is
a quantity selector scores 1, is not a product page, and has
confidence 5. -/
theorem c5_classifier_gate (s : SignalSet) :
    ((detectProductPage s).isProductPage = true ↔ 6 ≤ (detectProductPage s).score) ∧
    ((detectProductPage s).confidence = min (5 * ((detectProductPage s).score : Int)) 100) ∧
    detectProductPage ⟨false, false, false, false, false, false, false, true, false, false⟩ =
      { isProductPage := false, confidence := 5, score := 1, maxScore := 20 } := by
  refine ⟨?_, ?_, by decide⟩
  · simp [detectProductPage]
  · show Frac.roundHalfUp (Frac.minF ⟨(detectScore s : Int) * 100, 20⟩ ⟨100, 1⟩) =
      min (5 * ((detectScore s : Int))) 100
    set m : Nat := detectScore s with hm
    by_cases h : m ≤ 20
    · have hle : Frac.leB ⟨(m : Int) * 100, 20⟩ ⟨100, 1⟩ = true := by
        simp only [Frac.leB, decide_eq_true_eq]
        push_cast
        omega
      rw [Frac.minF, hle, if_pos rfl]
      have harg : ((m * 100 : Nat) : Int) = (m : Int) * 100 := by
        push_cast
        ring
      rw [← harg, roundHalfUp_nonneg]
      omega
    · have hle : Frac.leB ⟨(m : Int) * 100, 20⟩ ⟨100, 1⟩ = false := by
        simp only [Frac.leB, decide_eq_false_iff_not, not_le]
        push_cast
        omega
      rw [Frac.minF, hle]
      simp only [Bool.false_eq_true, if_false]
      have h100 : Frac.roundHalfUp ⟨100, 1⟩ = 100 := by decide
      rw [h100]
      omega

theorem ite_weight_le {a b : Bool} (h : a = true → b = true) (w : Nat) :
    (if a then w else 0) ≤ (if b then w else 0) := by
  cases a
  · simp
  · rw [h rfl]

/-- C6: turning any signal of the checklist from absent to present (more
generally, pointwise dominance of signal sets) never decreases the
aggregate score of `detectProductPage`. -/
theorem c6_score_monotone (s t : SignalSet) (h : sigLe s t) :
    detectScore s ≤ detectScore t := by
  obtain ⟨h1, h2, h3, h4, h5, h6, h7, h8, h9, h10⟩ := h
  have H1 := ite_weight_le h1 5
  have H2 := ite_weight_le h2 5
  have H3 := ite_weight_le h3 3
  have H4 := ite_weight_le h4 3
  have H5 := ite_weight_le h5 4
  have H6 := ite_weight_le h6 2
  have H7 := ite_weight_le h7 2
  have H8 := ite_weight_le h8 1
  have H9 := ite_weight_le h9 1
  have H10 := ite_weight_le h10 1
  unfold detectScore
  omega

/-- C6 witness: adding a purchase-action control to an empty page raises
the score from 0 to 4. -/
theorem c6_score_monotone_witness :
    sigLe ⟨false, false, false, false, false, false, false, false, false, false⟩
          ⟨false, false, false, false, true, false, false, false, false, false⟩ ∧
    detectScore ⟨false, false, false, false, false, false, false, false, false, false⟩ ≤
      detectScore ⟨false, false, false, false, true, false, false, false, false, false⟩ :=
  ⟨by constructor <;> simp, c6_score_monotone _ _ (by constructor <;> simp)⟩

/-! ### Claims C7 and C8: name fallback and final validation -/

theorem isEmpty_false_of_length {s : String} (h : 0 < s.length) : s.isEmpty = false := by
  cases he : s.isEmpty
  · rfl
  · exfalso
    have hs := (String.isEmpty_iff s).mp he
    subst hs
    exact absurd h (by decide)

/-- C7 counterexample: a document whose only heading is the 6-character
h1 `Widget` does not yield a null name — the h1 fallback heuristic has no
10-character minimum and returns `Widget`, contradicting the claimed
end-to-end null result. -/
theorem c7_counterexample :
    ("Widget".length = 6) ∧
    extractProductName [⟨"Widget", ⟨100, 1⟩⟩] = some "Widget" := by
  constructor
  · decide
  · decide

/-- C7 (amended): a 6-character heading (more generally, any heading with
trimmed length at most 10) is rejected by the scanner cascade's length
filter, but the generic h1 fallback has no minimum length — it accepts
any non-empty heading — so the extracted name is the trimmed heading
text, not null. -/
theorem c7_short_heading (t : String) (top : Frac) (visible : Bool)
    (hshort : (jsTrim t).length ≤ 10) (hpos : 0 < (jsTrim t).length) :
    nameScanAccept ⟨t, visible⟩ = false ∧
    extractProductName [⟨t, top⟩] = some (jsTrim t) := by
  constructor
  · simp only [nameScanAccept]
    have h10 : decide (10 < (jsTrim t).length) = false := by
      simp only [decide_eq_false_iff_not, not_lt]
      exact hshort
    simp [h10]
  · unfold extractProductName
    have hfil : decide (0 < (jsTrim t).length) = true := by
      simp only [decide_eq_true_eq]
      exact hpos
    simp only [List.isEmpty_cons, List.filter, hfil, List.map_cons, List.map_nil]
    have hsort : jsSortBy nameKeep [{ text := jsTrim t, score := nameScore ⟨t, top⟩ }] =
        [{ text := jsTrim t, score := nameScore ⟨t, top⟩ }] := rfl
    rw [hsort]
    simp [isEmpty_false_of_length hpos]

/-- C7 witness: the concrete 6-character heading of the claim. -/
theorem c7_short_heading_witness :
    nameScanAccept ⟨"Widget", true⟩ = false ∧
    extractProductName [⟨"Widget", ⟨100, 1⟩⟩] = some "Widget" := by
  have h := c7_short_heading "Widget" ⟨100, 1⟩ true (by decide) (by decide)
  exact ⟨h.1, h.2.trans (by decide)⟩

/-- C8: the final validation of `extractProductInfo` throws exactly when
name, image and price all resolved to null, and returns the record
untouched when at least one field is present (the hypotheses record that
the extraction pipeline never stores an empty-string field, so JS
falsiness coincides with null). -/
theorem c8_empty_extraction (d : ProductData)
    (hn : d.name ≠ some "") (hi : d.image ≠ some "") (hp : d.price ≠ some "") :
    ((∃ e, finalValidate d = Except.error e) ↔
      (d.name = none ∧ d.image = none ∧ d.price = none)) ∧
    ((d.name ≠ none ∨ d.image ≠ none ∨ d.price ≠ none) → finalValidate d = Except.ok d) := by
  have falsy_iff : ∀ (o : Option String), o ≠ some "" → (jsFalsyStr o = true ↔ o = none) := by
    intro o ho
    cases o with
    | none => simp [jsFalsyStr]
    | some s =>
      simp only [jsFalsyStr]
      constructor
      · intro hs
        exact absurd (congrArg some ((String.isEmpty_iff s).mp hs)) ho
      · intro hs
        exact absurd hs (by simp)
  cases hb : (jsFalsyStr d.name && jsFalsyStr d.image && jsFalsyStr d.price) with
  | true =>
    simp only [Bool.and_eq_true] at hb
    obtain ⟨⟨h1, h2⟩, h3⟩ := hb
    have e1 := (falsy_iff _ hn).mp h1
    have e2 := (falsy_iff _ hi).mp h2
    have e3 := (falsy_iff _ hp).mp h3
    have hv : finalValidate d = Except.error "Could not find product information on this page." := by
      unfold finalValidate
      rw [h1, h2, h3]
      rfl
    refine ⟨⟨fun _ => ⟨e1, e2, e3⟩, fun _ => ⟨_, hv⟩⟩, ?_⟩
    intro hor
    rcases hor with h | h | h <;> exact absurd (by assumption) h
  | false =>
    have hv : finalValidate d = Except.ok d := by
      unfold finalValidate
      rw [show (jsFalsyStr d.name && jsFalsyStr d.image && jsFalsyStr d.price) = false from hb]
      rfl
    refine ⟨⟨?_, ?_⟩, fun _ => hv⟩
    · intro ⟨e, he⟩
      rw [hv] at he
      exact absurd he (by simp)
    · intro ⟨e1, e2, e3⟩
      have : (jsFalsyStr d.name && jsFalsyStr d.image && jsFalsyStr d.price) = true := by
        rw [e1, e2, e3]
        rfl
      rw [this] at hb
      exact absurd hb (by simp)

/-- C8 witness: a record with only a name succeeds; a fully-null record
errors. -/
theorem c8_empty_extraction_witness :
    finalValidate ⟨some "Midnight Running Jacket", none, none⟩ =
      Except.ok ⟨some "Midnight Running Jacket", none, none⟩ :=
  (c8_empty_extraction ⟨some "Midnight Running Jacket", none, none⟩
    (by decide) (by decide) (by decide)).2 (Or.inl (by decide))

/-! ### Claim C9: scanner result ordering -/

/-- C9: in the sorted scanner output, every modal-sourced candidate
precedes every main-page candidate regardless of confidence, and within
a source group candidates appear in descending confidence order (the
denominator hypothesis records that confidences are well-formed
numbers). -/
theorem c9_modal_priority (l : List Cand) (hwf : ∀ c ∈ l, 0 < c.confidence.den) :
    (sortResults l).Pairwise (fun a b =>
      (b.source = CandSource.modal → a.source = CandSource.modal) ∧
      (a.source = b.source → Frac.leB b.confidence a.confidence = true)) := by
  have htot : ∀ a ∈ l, ∀ b ∈ l, candKeep a b = true ∨ candKeep b a = true := by
    intro a _ b _
    unfold candKeep
    rcases ha : a.source <;> rcases hb : b.source <;> simp
    · exact (Frac.leB_total b.confidence a.confidence).elim Or.inl Or.inr
    · exact (Frac.leB_total b.confidence a.confidence).elim Or.inl Or.inr
  have htrans : ∀ a ∈ l, ∀ b ∈ l, ∀ c ∈ l,
      candKeep a b = true → candKeep b c = true → candKeep a c = true := by
    intro a _ b hb c _ h1 h2
    have hwfb : Frac.Wf b.confidence := hwf b hb
    unfold candKeep at h1 h2 ⊢
    rcases ha : a.source <;> rcases hbs : b.source <;> rcases hc : c.source <;>
      simp_all
    · exact Frac.leB_trans hwfb h2 h1
    · exact Frac.leB_trans hwfb h2 h1
  have hp := pairwise_jsSortBy candKeep l htot htrans
  refine hp.imp ?_
  intro a b hab
  unfold candKeep at hab
  rcases ha : a.source <;> rcases hb : b.source <;> simp_all

/-- C9 witness: a mixed modal/main candidate list sorted by the model. -/
theorem c9_modal_priority_witness :
    (sortResults [⟨"a", ⟨9, 1⟩, CandSource.mainPage⟩, ⟨"b", ⟨3, 1⟩, CandSource.modal⟩,
                  ⟨"c", ⟨7, 1⟩, CandSource.modal⟩]).Pairwise (fun a b =>
      (b.source = CandSource.modal → a.source = CandSource.modal) ∧
      (a.source = b.source → Frac.leB b.confidence a.confidence = true)) :=
  c9_modal_priority _ (by decide)

/-! ### Minimum and maximum selection in value-sorted token lists -/

theorem Frac.leB_refl (a : Frac) : Frac.leB a a = true := by
  simp [Frac.leB]

theorem Frac.leB_of_ltB_false {a b : Frac} (h : Frac.ltB a b = false) :
    Frac.leB b a = true := by
  simp only [Frac.ltB, decide_eq_false_iff_not, not_lt] at h
  simp only [Frac.leB, decide_eq_true_eq]
  omega

theorem val_den_pos {s : String} {v : Frac} (h : val s = some v) : 0 < v.den :=
  parseFloatR_den_pos h

theorem jsSortBy_ne_nil {α : Type} (r : α → α → Bool) {l : List α} (hl : l ≠ []) :
    jsSortBy r l ≠ [] := by
  intro hnil
  cases l with
  | nil => exact hl rfl
  | cons a as =>
    have : a ∈ jsSortBy r (a :: as) := (mem_jsSortBy r _ a).mpr (List.mem_cons_self _ _)
    rw [hnil] at this
    simp at this

/-- Head of the ascending value sort is a member with minimal value
(among lists whose values all parse to well-formed numbers). -/
theorem sortAsc_head_min {toks : List Tok}
    (hsome : ∀ t ∈ toks, (t.value).isSome = true)
    (hden : ∀ t ∈ toks, ∀ v, t.value = some v → 0 < v.den)
    {h0 : Tok} {rest : List Tok}
    (heq : jsSortBy tokKeepAsc toks = h0 :: rest) :
    h0 ∈ toks ∧ ∀ t ∈ toks, tokKeepAsc h0 t = true := by
  apply head_jsSortBy tokKeepAsc toks h0 rest ?htot ?htrans heq
  case htot =>
    intro a _ b _
    unfold tokKeepAsc
    rcases hav : a.value with _ | av <;> rcases hbv : b.value with _ | bv <;> simp
    exact (Frac.leB_total av bv).elim Or.inl Or.inr
  case htrans =>
    intro a ha b hb c hc h1 h2
    obtain ⟨av, hav⟩ := Option.isSome_iff_exists.mp (hsome a ha)
    obtain ⟨bv, hbv⟩ := Option.isSome_iff_exists.mp (hsome b hb)
    obtain ⟨cv, hcv⟩ := Option.isSome_iff_exists.mp (hsome c hc)
    unfold tokKeepAsc at h1 h2 ⊢
    rw [hav, hbv] at h1
    rw [hbv, hcv] at h2
    rw [hav, hcv]
    exact Frac.leB_trans (hden b hb bv hbv) h1 h2

/-- Head of the descending value sort is a member with maximal value. -/
theorem sortDesc_head_max {toks : List Tok}
    (hsome : ∀ t ∈ toks, (t.value).isSome = true)
    (hden : ∀ t ∈ toks, ∀ v, t.value = some v → 0 < v.den)
    {h0 : Tok} {rest : List Tok}
    (heq : jsSortBy tokKeepDesc toks = h0 :: rest) :
    h0 ∈ toks ∧ ∀ t ∈ toks, tokKeepDesc h0 t = true := by
  apply head_jsSortBy tokKeepDesc toks h0 rest ?htot ?htrans heq
  case htot =>
    intro a _ b _
    unfold tokKeepDesc
    rcases hav : a.value with _ | av <;> rcases hbv : b.value with _ | bv <;> simp
    exact (Frac.leB_total bv av).elim Or.inl Or.inr
  case htrans =>
    intro a ha b hb c hc h1 h2
    obtain ⟨av, hav⟩ := Option.isSome_iff_exists.mp (hsome a ha)
    obtain ⟨bv, hbv⟩ := Option.isSome_iff_exists.mp (hsome b hb)
    obtain ⟨cv, hcv⟩ := Option.isSome_iff_exists.mp (hsome c hc)
    unfold tokKeepDesc at h1 h2 ⊢
    rw [hav, hbv] at h1
    rw [hbv, hcv] at h2
    rw [hav, hcv]
    exact Frac.leB_trans (hden b hb bv hbv) h2 h1

/-- The parsed value of every `matchAllFull` token is a number. -/
theorem matchAllFull_val_isSome {s tok : String} (h : tok ∈ matchAllFull s) :
    (val tok).isSome = true := by
  obtain ⟨lex, rfl, hshape⟩ := matchAllFull_shape h
  exact val_isSome_of_LexShape hshape

/-- The parsed value of every `matchAllEbay` token is a number. -/
theorem matchAllEbay_val_isSome {s tok : String} (h : tok ∈ matchAllEbay s) :
    (val tok).isSome = true := by
  obtain ⟨lex, rfl, hshape⟩ := matchAllEbay_shape h
  exact val_isSome_of_LexShape hshape

/-- The parsed value of every `matchAllDec` token is a number. -/
theorem matchAllDec_val_isSome {s tok : String} (h : tok ∈ matchAllDec s) :
    (val tok).isSome = true := by
  obtain ⟨lex, rfl, hshape⟩ := matchAllDec_shape h
  exact val_isSome_of_LexShape hshape

/-! ### Claim C4: the Abercrombie discount validation pass -/

/-- C4: after the post-resolution correction pass, the discount price is
at most every price token found in the enclosing price container — in
particular at most the original price — and it is also at most the value
that was flagged before the pass; if the flagged value was not minimal,
it is replaced by the minimal container token. -/
theorem c4_discount_correction (priceText ct : String)
    (hcur : (val priceText).isSome = true)
    (hlen : 2 ≤ (matchAllFull ct).length) :
    ∃ v, val (abercrombieValidate priceText true (some ct)) = some v ∧
      (∀ cv, val priceText = some cv → Frac.leB v cv = true) ∧
      (∀ t ∈ matchAllFull ct, ∀ w, val t = some w → Frac.leB v w = true) := by
  obtain ⟨cv0, hcv0⟩ := Option.isSome_iff_exists.mp hcur
  have hempty : priceText.isEmpty = false := by
    cases he : priceText.isEmpty
    · rfl
    · exfalso
      have := (String.isEmpty_iff priceText).mp he
      subst this
      rw [show val "" = none from rfl] at hcv0
      exact absurd hcv0 (by simp)
  have hsome : ∀ t ∈ (matchAllFull ct).map
      (fun p => ({ text := jsTrim p, value := val p } : Tok)), (t.value).isSome = true := by
    intro t ht
    obtain ⟨p, hp, rfl⟩ := List.mem_map.mp ht
    exact matchAllFull_val_isSome hp
  have hden : ∀ t ∈ (matchAllFull ct).map
      (fun p => ({ text := jsTrim p, value := val p } : Tok)),
      ∀ v, t.value = some v → 0 < v.den := by
    intro t ht v hv
    obtain ⟨p, hp, rfl⟩ := List.mem_map.mp ht
    exact val_den_pos hv
  have hne : (matchAllFull ct).map
      (fun p => ({ text := jsTrim p, value := val p } : Tok)) ≠ [] := by
    intro hnil
    rw [← List.length_eq_zero] at hnil
    rw [List.length_map] at hnil
    omega
  obtain ⟨p0, rest, hsorted⟩ : ∃ p0 rest,
      jsSortBy tokKeepAsc ((matchAllFull ct).map
        (fun p => ({ text := jsTrim p, value := val p } : Tok))) = p0 :: rest := by
    rcases hs : jsSortBy tokKeepAsc _ with _ | ⟨p0, rest⟩
    · exact absurd hs (jsSortBy_ne_nil _ hne)
    · exact ⟨p0, rest, rfl⟩
  obtain ⟨hp0mem, hp0min⟩ := sortAsc_head_min hsome hden hsorted
  obtain ⟨p, hp, hp0eq⟩ := List.mem_map.mp hp0mem
  obtain ⟨v0, hv0⟩ := Option.isSome_iff_exists.mp (hsome p0 hp0mem)
  have hp0text : val p0.text = some v0 := by
    rw [← hp0eq]
    show val (jsTrim p) = some v0
    rw [val_jsTrim]
    rw [← hp0eq] at hv0
    exact hv0
  have hv0den : 0 < v0.den := hden p0 hp0mem v0 hv0
  have hresult : abercrombieValidate priceText true (some ct) =
      (if vLtOpt p0.value (val priceText) then p0.text else priceText) := by
    simp only [abercrombieValidate, hempty, Bool.not_false, Bool.and_self, if_true]
    rw [if_pos hlen, hsorted]
    rfl
  have hmin : ∀ t ∈ matchAllFull ct, ∀ w, val t = some w → Frac.leB v0 w = true := by
    intro t ht w hw
    have hkeep := hp0min _ (List.mem_map_of_mem _ ht)
    unfold tokKeepAsc at hkeep
    simp only [hw, hv0] at hkeep
    exact hkeep
  by_cases hlt : vLtOpt p0.value (val priceText) = true
  · rw [hresult, if_pos hlt]
    refine ⟨v0, hp0text, ?_, hmin⟩
    intro cv hcv
    rw [hcv0] at hcv
    obtain rfl := Option.some.inj hcv.symm
    rw [hv0, hcv0] at hlt
    exact Frac.leB_of_ltB hlt
  · rw [hresult, if_neg hlt]
    refine ⟨cv0, hcv0, ?_, ?_⟩
    · intro cv hcv
      rw [hcv0] at hcv
      obtain rfl := Option.some.inj hcv.symm
      exact Frac.leB_refl _
    · intro t ht w hw
      have hltf : Frac.ltB v0 cv0 = false := by
        rw [hv0, hcv0] at hlt
        simpa using hlt
      have h1 : Frac.leB cv0 v0 = true := Frac.leB_of_ltB_false hltf
      exact Frac.leB_trans hv0den h1 (hmin t ht w hw)

/-- C4 witness: the claim's canonical container with tokens 160 and 136,
where a wrongly flagged 160 is corrected down to 136. -/
theorem c4_discount_correction_witness :
    abercrombieValidate "$160.00" true (some "$160.00 $136.00") = "$136.00" ∧
    (∃ v, val (abercrombieValidate "$160.00" true (some "$160.00 $136.00")) = some v ∧
      (∀ cv, val "$160.00" = some cv → Frac.leB v cv = true) ∧
      (∀ t ∈ matchAllFull "$160.00 $136.00", ∀ w, val t = some w → Frac.leB v w = true)) :=
  ⟨by decide, c4_discount_correction "$160.00" "$160.00 $136.00" (by decide) (by decide)⟩

/-! ### Last characters of eBay tokens, last elements of sorted lists -/

theorem getLast?_digit_of_all {d : List Char} (hne : d ≠ [])
    (hd : ∀ x ∈ d, x.isDigit = true) :
    ∃ x, d.getLast? = some x ∧ x.isDigit = true := by
  refine ⟨d.getLast hne, ?_, hd _ (List.getLast_mem hne)⟩
  exact List.getLast?_eq_getLast d hne

theorem ebayDec_last (l : List Char) :
    (ebayDec l).1 = [] ∨ ∃ x, (ebayDec l).1.getLast? = some x ∧ x.isDigit = true := by
  unfold ebayDec
  split
  case h_1 _ a b r =>
    by_cases ha : a.isDigit = true
    · by_cases hb : b.isDigit = true
      · right
        refine ⟨b, by simp [ha, hb], hb⟩
      · right
        refine ⟨a, by simp [ha, hb], ha⟩
    · left
      simp [ha]
  case h_2 _ a r _ =>
    by_cases ha : a.isDigit = true
    · right
      refine ⟨a, by simp [ha], ha⟩
    · left
      simp [ha]
  case h_3 => left; rfl

theorem ebayGroups_last : ∀ (fuel : Nat) (l : List Char),
    (ebayGroups fuel l).1 = [] ∨
      ∃ x, (ebayGroups fuel l).1.getLast? = some x ∧ x.isDigit = true := by
  intro fuel
  induction fuel with
  | zero => intro l; left; rfl
  | succ n ih =>
    intro l
    unfold ebayGroups
    split
    next a b d r =>
      split
      next hdig =>
        simp only [Bool.and_eq_true] at hdig
        right
        rcases ih r with hnil | ⟨x, hx, hxd⟩
        · dsimp only
          rw [hnil]
          exact ⟨d, by simp, hdig.2⟩
        · refine ⟨x, ?_, hxd⟩
          have hne : (ebayGroups n r).1 ≠ [] := by
            intro hcontra
            rw [hcontra] at hx
            simp at hx
          dsimp only
          rw [show (',' :: a :: b :: d :: (ebayGroups n r).1) =
            [',', a, b, d] ++ (ebayGroups n r).1 from rfl]
          rw [List.getLast?_append_of_ne_nil _ hne]
          exact hx
      next => left; rfl
    next => left; rfl

theorem ebayCore_last {l lex r : List Char} (h : ebayCore l = some (lex, r)) :
    ∃ x, lex.getLast? = some x ∧ x.isDigit = true := by
  have hdigs : ∀ x ∈ (l.takeWhile Char.isDigit).take 3, x.isDigit = true :=
    fun x hx => takeWhile_digits l x (List.mem_of_mem_take hx)
  simp only [ebayCore] at h
  split at h
  · exact absurd h (by simp)
  next hne =>
    have hne2 : (l.takeWhile Char.isDigit).take 3 ≠ [] := by
      intro hnil
      simp [hnil] at hne
    obtain ⟨rfl, rfl⟩ := Prod.mk.injEq _ _ _ _ ▸ (Option.some.inj h)
    set digs := (l.takeWhile Char.isDigit).take 3 with hdigsdef
    set rr := l.drop digs.length with hrrdef
    rcases ebayDec_last (ebayGroups rr.length rr).2 with hdnil | ⟨x, hx, hxd⟩
    · rw [hdnil, List.append_nil]
      rcases ebayGroups_last rr.length rr with hgnil | ⟨y, hy, hyd⟩
      · rw [hgnil, List.append_nil]
        exact getLast?_digit_of_all hne2 hdigs
      · refine ⟨y, ?_, hyd⟩
        have hgne : (ebayGroups rr.length rr).1 ≠ [] := by
          intro hcontra
          rw [hcontra] at hy
          simp at hy
        rw [List.getLast?_append_of_ne_nil _ hgne]
        exact hy
    · refine ⟨x, ?_, hxd⟩
      have hdne : (ebayDec (ebayGroups rr.length rr).2).1 ≠ [] := by
        intro hcontra
        rw [hcontra] at hx
        simp at hx
      rw [List.getLast?_append_of_ne_nil _ hdne]
      exact hx

theorem wsAttempt_last {core : List Char → Option (List Char × List Char)}
    (hcore : ∀ {l lex r}, core l = some (lex, r) →
      ∃ x, lex.getLast? = some x ∧ x.isDigit = true)
    {c : Char} {rest lex r : List Char}
    (h : wsAttempt core c rest = some (lex, r)) :
    ∃ x, lex.getLast? = some x ∧ x.isDigit = true := by
  unfold wsAttempt at h
  split at h
  · exact absurd h (by simp)
  next d rest2 =>
    have key : ∀ (pre : List Char) (lex2 : List Char),
        (∃ x, lex2.getLast? = some x ∧ x.isDigit = true) →
        ∃ x, (pre ++ lex2).getLast? = some x ∧ x.isDigit = true := by
      intro pre lex2 ⟨x, hx, hxd⟩
      refine ⟨x, ?_, hxd⟩
      have hne : lex2 ≠ [] := by
        intro hcontra
        rw [hcontra] at hx
        simp at hx
      rw [List.getLast?_append_of_ne_nil _ hne]
      exact hx
    split at h
    · split at h
      next lex2 r2 heq =>
        obtain ⟨rfl, rfl⟩ := Prod.mk.injEq _ _ _ _ ▸ (Option.some.inj h)
        exact key [c, d] lex2 (hcore heq)
      · exact absurd h (by simp)
    · split at h
      next lex2 r2 heq =>
        obtain ⟨rfl, rfl⟩ := Prod.mk.injEq _ _ _ _ ▸ (Option.some.inj h)
        exact key [c] lex2 (hcore heq)
      · exact absurd h (by simp)

theorem scanT_last {att : Char → List Char → Option (List Char × List Char)}
    (hatt : ∀ {c rest lex r}, att c rest = some (lex, r) →
      ∃ x, lex.getLast? = some x ∧ x.isDigit = true) :
    ∀ {cs lex r}, scanT att cs = some (lex, r) →
      ∃ x, lex.getLast? = some x ∧ x.isDigit = true := by
  intro cs
  induction cs with
  | nil => intro lex r h; exact absurd h (by simp [scanT])
  | cons c rest ih =>
    intro lex r h
    unfold scanT at h
    split at h
    · split at h
      next lex2 r2 heq =>
        obtain ⟨rfl, rfl⟩ := Prod.mk.injEq _ _ _ _ ▸ (Option.some.inj h)
        exact hatt heq
      next => exact ih h
    next => exact ih h

theorem matchAllAux_last {m : List Char → Option (List Char × List Char)}
    (hm : ∀ {cs lex r}, m cs = some (lex, r) →
      ∃ x, lex.getLast? = some x ∧ x.isDigit = true) :
    ∀ (fuel : Nat) (cs : List Char) (tok : String),
      tok ∈ matchAllAux m fuel cs →
      ∃ x, tok.data.getLast? = some x ∧ x.isDigit = true := by
  intro fuel
  induction fuel with
  | zero => intro cs tok h; exact absurd h (by simp [matchAllAux])
  | succ n ih =>
    intro cs tok h
    cases cs with
    | nil => exact absurd h (by simp [matchAllAux])
    | cons c rest =>
      unfold matchAllAux at h
      split at h
      next lex r heq =>
        rcases List.mem_cons.mp h with rfl | h2
        · exact hm heq
        · exact ih r tok h2
      next => exact absurd h (by simp)

/-- Every eBay price token ends with a digit. -/
theorem matchAllEbay_last {s tok : String} (h : tok ∈ matchAllEbay s) :
    ∃ x, tok.data.getLast? = some x ∧ x.isDigit = true :=
  matchAllAux_last (fun heq => scanT_last (fun h2 => wsAttempt_last ebayCore_last h2) heq)
    _ _ _ h

theorem dropWhile_eq_self_head {l : List Char}
    (h : ∀ x, l.head? = some x → x.isWhitespace = false) :
    l.dropWhile Char.isWhitespace = l := by
  cases l with
  | nil => rfl
  | cons a as => simp [List.dropWhile, h a rfl]

theorem trimList_eq_self_of_ends {l : List Char}
    (hhead : ∀ x, l.head? = some x → x.isWhitespace = false)
    (hlast : ∀ x, l.getLast? = some x → x.isWhitespace = false) :
    trimList l = l := by
  unfold trimList
  rw [dropWhile_eq_self_head hhead,
    dropWhile_eq_self_head (fun x hx => hlast x (by rwa [List.head?_reverse] at hx)),
    List.reverse_reverse]

/-- eBay price tokens are unchanged by trimming: they start with a
currency symbol and end with a digit. -/
theorem matchAllEbay_trim {s tok : String} (h : tok ∈ matchAllEbay s) :
    jsTrim tok = tok := by
  obtain ⟨lex, rfl, c, sp, d, rest2, hlex, hc, hsp, hd, hdd⟩ := matchAllEbay_shape h
  obtain ⟨x, hx, hxd⟩ := matchAllEbay_last h
  show String.mk (trimList (String.mk lex).data) = String.mk lex
  congr 1
  apply trimList_eq_self_of_ends
  · intro y hy
    rw [hlex] at hy
    simp only [List.head?_cons, Option.some.injEq] at hy
    subst hy
    exact currency_not_ws hc
  · intro y hy
    have : (String.mk lex).data.getLast? = some y := hy
    rw [this] at hx
    obtain rfl := Option.some.inj hx
    exact digit_not_ws hxd

/-- Tokens ending in a digit never end with a dot. -/
theorem endsWithDot_false_of_digit {tok : String}
    (h : ∃ x, tok.data.getLast? = some x ∧ x.isDigit = true) :
    endsWithDot tok = false := by
  obtain ⟨x, hx, hxd⟩ := h
  unfold endsWithDot
  rw [hx]
  by_cases hdot : x = '.'
  · subst hdot
    exact absurd hxd (by decide)
  · simp [hdot]

/-- Last element of a sorted list is related from every other element. -/
theorem pairwise_getLast {α : Type} {r : α → α → Prop} {l : List α}
    (hp : l.Pairwise r) {x : α} (hx : l.getLast? = some x) :
    ∀ y ∈ l, y = x ∨ r y x := by
  have hrev : l.reverse.Pairwise (fun a b => r b a) := List.pairwise_reverse.mpr hp
  have hhead : l.reverse.head? = some x := by
    rw [List.head?_reverse]
    exact hx
  cases hrL : l.reverse with
  | nil =>
    rw [hrL] at hhead
    exact absurd hhead (by simp)
  | cons a as =>
    rw [hrL] at hhead
    obtain rfl := Option.some.inj hhead
    intro y hy
    have hyrev : y ∈ l.reverse := List.mem_reverse.mpr hy
    rw [hrL] at hyrev
    rcases List.mem_cons.mp hyrev with rfl | hmem
    · exact Or.inl rfl
    · rw [hrL] at hrev
      exact Or.inr ((List.pairwise_cons.mp hrev).1 y hmem)

theorem length_insertBy {α : Type} (r : α → α → Bool) (x : α) (l : List α) :
    (insertBy r x l).length = l.length + 1 := by
  induction l with
  | nil => rfl
  | cons y ys ih =>
    simp only [insertBy]
    by_cases h : r y x = true
    · rw [if_pos h]
      simp [ih]
    · rw [if_neg h]
      simp

theorem length_jsSortBy {α : Type} (r : α → α → Bool) (l : List α) :
    (jsSortBy r l).length = l.length := by
  have aux : ∀ (todo acc : List α),
      (todo.foldl (fun acc x => insertBy r x acc) acc).length = acc.length + todo.length := by
    intro todo
    induction todo with
    | nil => intro acc; simp
    | cons y ys ih =>
      intro acc
      simp only [List.foldl_cons, ih, length_insertBy, List.length_cons]
      omega
  simpa using aux l []

/-- Pairwise ordering of the ascending value sort of a well-formed token
list. -/
theorem pairwise_sortAsc {toks : List Tok}
    (hsome : ∀ t ∈ toks, (t.value).isSome = true)
    (hden : ∀ t ∈ toks, ∀ v, t.value = some v → 0 < v.den) :
    (jsSortBy tokKeepAsc toks).Pairwise (fun a b => tokKeepAsc a b = true) := by
  apply pairwise_jsSortBy
  · intro a _ b _
    unfold tokKeepAsc
    rcases hav : a.value with _ | av <;> rcases hbv : b.value with _ | bv <;> simp
    exact (Frac.leB_total av bv).elim Or.inl Or.inr
  · intro a ha b hb c hc h1 h2
    obtain ⟨av, hav⟩ := Option.isSome_iff_exists.mp (hsome a ha)
    obtain ⟨bv, hbv⟩ := Option.isSome_iff_exists.mp (hsome b hb)
    obtain ⟨cv, hcv⟩ := Option.isSome_iff_exists.mp (hsome c hc)
    unfold tokKeepAsc at h1 h2 ⊢
    rw [hav, hbv] at h1
    rw [hbv, hcv] at h2
    rw [hav, hcv]
    exact Frac.leB_trans (hden b hb bv hbv) h1 h2

/-! ### Claim C3: multi-token price containers -/

/-- C3 counterexample: an eBay price element whose text carries 269.99
and 249.99 — the eBay multi-price handling returns the maximum-valued
token 269.99 (with no discount flag), not the minimum 249.99 the claim
requires. -/
theorem c3_counterexample :
    matchAllEbay "US $269.99 $249.99 with coupon" = ["$269.99", "$249.99"] ∧
    ebayPrice [("div.x-price-primary",
      ⟨⟨"", [], none⟩, "US $269.99 $249.99 with coupon", none, false, false, false, false⟩)] =
      some "$269.99" ∧
    Frac.ltB ⟨24999, 100⟩ ⟨26999, 100⟩ = true := by
  decide

/-- C3 (amended): when a container's text yields two or more price
tokens, the Abercrombie wrapper path (part 1) and the scanner wrapper
path (part 2) sort ascending by value and select the minimum-valued
token as the discount candidate — the Abercrombie flag is set only when
the minimum is strictly below some other token, and the scanner also
reports the maximum-valued token as the original — but the eBay
multi-price handling (part 3) sorts descending and selects the
maximum-valued token as the price, with no discount flag at all. -/
theorem c3_multi_price :
    (∀ wt : String, 2 ≤ (matchAllFull wt).length →
      ∃ t d v, abercrombieWrapperPrice wt = some (t, d) ∧ val t = some v ∧
        (∀ tok ∈ matchAllFull wt, ∀ w, val tok = some w → Frac.leB v w = true) ∧
        (d = true → ∃ tok ∈ matchAllFull wt, ∀ w, val tok = some w → Frac.ltB v w = true)) ∧
    (∀ text : String, text.isEmpty = false → text.length ≤ 200 →
      2 ≤ (matchAllFull text).length →
      (∀ tok ∈ matchAllFull text, plausibleB (val tok) = true) →
      ∃ c v vo, scanWrapperStep text = some c ∧ c.isDiscount = true ∧
        val c.price = some v ∧ val c.originalText = some vo ∧
        (∀ tok ∈ matchAllFull text, ∀ w, val tok = some w →
          Frac.leB v w = true ∧ Frac.leB w vo = true)) ∧
    (∀ (sel : String) (e : EbayEl), 2 ≤ (matchAllEbay e.fullText).length →
      (∀ tok ∈ matchAllEbay e.fullText, plausibleB (val tok) = true) →
      ∃ c v, ebayStep sel e = some c ∧ c.value = some v ∧ val c.text = some v ∧
        (∀ tok ∈ matchAllEbay e.fullText, ∀ w, val tok = some w → Frac.leB w v = true)) := by
  refine ⟨?parta, ?partb, ?partc⟩
  case parta =>
    intro wt hlen
    have hsome : ∀ t ∈ (matchAllFull wt).map
        (fun p => ({ text := jsTrim p, value := val p } : Tok)), (t.value).isSome = true := by
      intro t ht
      obtain ⟨p, hp, rfl⟩ := List.mem_map.mp ht
      exact matchAllFull_val_isSome hp
    have hden : ∀ t ∈ (matchAllFull wt).map
        (fun p => ({ text := jsTrim p, value := val p } : Tok)),
        ∀ v, t.value = some v → 0 < v.den := by
      intro t ht v hv
      obtain ⟨p, hp, rfl⟩ := List.mem_map.mp ht
      exact val_den_pos hv
    obtain ⟨p0, p1, rest, hsorted⟩ : ∃ p0 p1 rest,
        jsSortBy tokKeepAsc ((matchAllFull wt).map
          (fun p => ({ text := jsTrim p, value := val p } : Tok))) = p0 :: p1 :: rest := by
      have hL : (jsSortBy tokKeepAsc ((matchAllFull wt).map
          (fun p => ({ text := jsTrim p, value := val p } : Tok)))).length =
          (matchAllFull wt).length := by
        rw [length_jsSortBy, List.length_map]
      rcases hs : jsSortBy tokKeepAsc _ with _ | ⟨p0, _ | ⟨p1, rest⟩⟩
      · rw [hs] at hL
        simp at hL
        omega
      · rw [hs] at hL
        simp at hL
        omega
      · exact ⟨p0, p1, rest, rfl⟩
    obtain ⟨hp0mem, hp0min⟩ := sortAsc_head_min hsome hden hsorted
    obtain ⟨p, hp, hp0eq⟩ := List.mem_map.mp hp0mem
    obtain ⟨v0, hv0⟩ := Option.isSome_iff_exists.mp (hsome p0 hp0mem)
    have hp0text : val p0.text = some v0 := by
      rw [← hp0eq]
      show val (jsTrim p) = some v0
      rw [val_jsTrim]
      rw [← hp0eq] at hv0
      exact hv0
    have hres : abercrombieWrapperPrice wt =
        some (p0.text, vLtOpt p0.value p1.value) := by
      simp only [abercrombieWrapperPrice]
      rw [if_pos hlen, hsorted]
      dsimp only
      by_cases hlt : vLtOpt p0.value p1.value = true
      · rw [if_pos hlt, hlt]
      · have hf : vLtOpt p0.value p1.value = false := by
          cases hx : vLtOpt p0.value p1.value
          · rfl
          · exact absurd hx hlt
        rw [if_neg hlt, hf]
    refine ⟨p0.text, vLtOpt p0.value p1.value, v0, hres, hp0text, ?_, ?_⟩
    · intro tok htok w hw
      have hkeep := hp0min _ (List.mem_map_of_mem _ htok)
      unfold tokKeepAsc at hkeep
      simp only [hw, hv0] at hkeep
      exact hkeep
    · intro hd
      have hp1mem : p1 ∈ jsSortBy tokKeepAsc ((matchAllFull wt).map
          (fun p => ({ text := jsTrim p, value := val p } : Tok))) := by
        rw [hsorted]
        exact List.mem_cons_of_mem _ (List.mem_cons_self _ _)
      have hp1mem2 := (mem_jsSortBy _ _ _).mp hp1mem
      obtain ⟨q, hq, hq1eq⟩ := List.mem_map.mp hp1mem2
      obtain ⟨v1, hv1⟩ := Option.isSome_iff_exists.mp (hsome p1 hp1mem2)
      refine ⟨q, hq, ?_⟩
      intro w hw
      have : val q = p1.value := by rw [← hq1eq]
      rw [this, hv1] at hw
      obtain rfl := Option.some.inj hw
      unfold vLtOpt at hd
      rw [hv0, hv1] at hd
      exact hd
  case partb =>
    intro text hemp hlen200 hlen hplaus
    have hsome : ∀ t ∈ (matchAllFull text).map
        (fun p => ({ text := jsTrim p, value := val p } : Tok)), (t.value).isSome = true := by
      intro t ht
      obtain ⟨p, hp, rfl⟩ := List.mem_map.mp ht
      exact matchAllFull_val_isSome hp
    have hden : ∀ t ∈ (matchAllFull text).map
        (fun p => ({ text := jsTrim p, value := val p } : Tok)),
        ∀ v, t.value = some v → 0 < v.den := by
      intro t ht v hv
      obtain ⟨p, hp, rfl⟩ := List.mem_map.mp ht
      exact val_den_pos hv
    obtain ⟨p0, srest, hsorted⟩ : ∃ p0 srest,
        jsSortBy tokKeepAsc ((matchAllFull text).map
          (fun p => ({ text := jsTrim p, value := val p } : Tok))) = p0 :: srest := by
      have hL : (jsSortBy tokKeepAsc ((matchAllFull text).map
          (fun p => ({ text := jsTrim p, value := val p } : Tok)))).length =
          (matchAllFull text).length := by
        rw [length_jsSortBy, List.length_map]
      rcases hs : jsSortBy tokKeepAsc _ with _ | ⟨p0, srest⟩
      · rw [hs] at hL
        simp at hL
        omega
      · exact ⟨p0, srest, rfl⟩
    obtain ⟨hp0mem, hp0min⟩ := sortAsc_head_min hsome hden hsorted
    obtain ⟨p, hp, hp0eq⟩ := List.mem_map.mp hp0mem
    obtain ⟨v0, hv0⟩ := Option.isSome_iff_exists.mp (hsome p0 hp0mem)
    have hp0text : val p0.text = some v0 := by
      rw [← hp0eq]
      show val (jsTrim p) = some v0
      rw [val_jsTrim]
      rw [← hp0eq] at hv0
      exact hv0
    have hp0valtok : val p = p0.value := by rw [← hp0eq]
    have hlastne : (p0 :: srest) ≠ ([] : List Tok) := by simp
    have hlast : (jsSortBy tokKeepAsc ((matchAllFull text).map
        (fun p => ({ text := jsTrim p, value := val p } : Tok)))).getLast? =
        some ((p0 :: srest).getLast hlastne) := by
      rw [hsorted]
      exact List.getLast?_eq_getLast _ hlastne
    set plast := (p0 :: srest).getLast hlastne with hplastdef
    have hplastmem : plast ∈ jsSortBy tokKeepAsc ((matchAllFull text).map
        (fun p => ({ text := jsTrim p, value := val p } : Tok))) := by
      rw [hsorted]
      exact List.getLast_mem hlastne
    have hplastmem2 := (mem_jsSortBy _ _ _).mp hplastmem
    obtain ⟨q, hq, hqeq⟩ := List.mem_map.mp hplastmem2
    obtain ⟨vo, hvo⟩ := Option.isSome_iff_exists.mp (hsome plast hplastmem2)
    have hplasttext : val plast.text = some vo := by
      rw [← hqeq]
      show val (jsTrim q) = some vo
      rw [val_jsTrim]
      rw [← hqeq] at hvo
      exact hvo
    have hpair := @pairwise_sortAsc
      ((matchAllFull text).map (fun p => ({ text := jsTrim p, value := val p } : Tok)))
      hsome hden
    have hmax : ∀ y ∈ jsSortBy tokKeepAsc ((matchAllFull text).map
        (fun p => ({ text := jsTrim p, value := val p } : Tok))),
        y = plast ∨ tokKeepAsc y plast = true :=
      pairwise_getLast hpair hlast
    have hplausmin : plausibleB (val p) = true := hplaus p hp
    have hbounds : (vGeB p0.value lowBound && vLeB p0.value highBound) = true := by
      rw [← hp0valtok] at hv0 ⊢
      rw [hv0] at hplausmin ⊢
      unfold plausibleB at hplausmin
      unfold vGeB vLeB
      exact hplausmin
    have hres : scanWrapperStep text =
        some { price := p0.text, isDiscount := true, originalText := plast.text } := by
      simp only [scanWrapperStep, hemp, Bool.false_or]
      rw [show decide (200 < text.length) = false from by
        simp only [decide_eq_false_iff_not, not_lt]; exact hlen200]
      simp only [Bool.false_eq_true, if_false]
      rw [if_pos hlen, hsorted]
      simp only [List.head?_cons]
      rw [show (p0 :: srest).getLast? = some plast from List.getLast?_eq_getLast _ hlastne]
      dsimp only
      rw [if_pos hbounds]
    refine ⟨_, v0, vo, hres, rfl, hp0text, hplasttext, ?_⟩
    intro tok htok w hw
    constructor
    · have hkeep := hp0min _ (List.mem_map_of_mem _ htok)
      unfold tokKeepAsc at hkeep
      simp only [hw, hv0] at hkeep
      exact hkeep
    · have hymem : ({ text := jsTrim tok, value := val tok } : Tok) ∈
          jsSortBy tokKeepAsc ((matchAllFull text).map
            (fun p => ({ text := jsTrim p, value := val p } : Tok))) :=
        (mem_jsSortBy _ _ _).mpr (List.mem_map_of_mem _ htok)
      rcases hmax _ hymem with heq | hkeep
      · have : val tok = plast.value := by
          rw [← heq]
        rw [this, hvo] at hw
        obtain rfl := Option.some.inj hw
        exact Frac.leB_refl _
      · unfold tokKeepAsc at hkeep
        simp only [hvo, hw] at hkeep
        exact hkeep
  case partc =>
    intro sel e hlen hplaus
    have hsome : ∀ t ∈ (matchAllEbay e.fullText).map
        (fun p => ({ text := jsTrim p, value := val (jsTrim p) } : Tok)),
        (t.value).isSome = true := by
      intro t ht
      obtain ⟨p, hp, rfl⟩ := List.mem_map.mp ht
      show (val (jsTrim p)).isSome = true
      rw [val_jsTrim]
      exact matchAllEbay_val_isSome hp
    have hden : ∀ t ∈ (matchAllEbay e.fullText).map
        (fun p => ({ text := jsTrim p, value := val (jsTrim p) } : Tok)),
        ∀ v, t.value = some v → 0 < v.den := by
      intro t ht v hv
      obtain ⟨p, hp, rfl⟩ := List.mem_map.mp ht
      exact val_den_pos hv
    obtain ⟨p0, srest, hsorted⟩ : ∃ p0 srest,
        jsSortBy tokKeepDesc ((matchAllEbay e.fullText).map
          (fun p => ({ text := jsTrim p, value := val (jsTrim p) } : Tok))) = p0 :: srest := by
      have hL : (jsSortBy tokKeepDesc ((matchAllEbay e.fullText).map
          (fun p => ({ text := jsTrim p, value := val (jsTrim p) } : Tok)))).length =
          (matchAllEbay e.fullText).length := by
        rw [length_jsSortBy, List.length_map]
      rcases hs : jsSortBy tokKeepDesc _ with _ | ⟨p0, srest⟩
      · rw [hs] at hL
        simp at hL
        omega
      · exact ⟨p0, srest, rfl⟩
    obtain ⟨hp0mem, hp0max⟩ := sortDesc_head_max hsome hden hsorted
    obtain ⟨p, hp, hp0eq⟩ := List.mem_map.mp hp0mem
    obtain ⟨v0, hv0⟩ := Option.isSome_iff_exists.mp (hsome p0 hp0mem)
    have hptrim : jsTrim p = p := matchAllEbay_trim hp
    have hp0textp : p0.text = p := by
      rw [← hp0eq]
      exact hptrim
    have hp0text : val p0.text = some v0 := by
      rw [← hp0eq]
      show val (jsTrim p) = some v0
      rw [← hp0eq] at hv0
      exact hv0
    have hnodot : endsWithDot p0.text = false := by
      rw [hp0textp]
      exact endsWithDot_false_of_digit (matchAllEbay_last hp)
    have hplausv : plausibleB p0.value = true := by
      have h1 := hplaus p hp
      have h2 : p0.value = val (jsTrim p) := by rw [← hp0eq]
      rw [h2, val_jsTrim]
      exact h1
    obtain ⟨c, hcres, hctext, hcval⟩ : ∃ c, ebayStep sel e = some c ∧
        c.text = jsTrim p0.text ∧ c.value = p0.value := by
      simp only [ebayStep]
      rw [if_pos hlen, hsorted]
      simp only [List.head?_cons]
      rw [hnodot]
      simp only [Bool.false_eq_true, if_false]
      rw [hplausv]
      simp only [if_true]
      exact ⟨_, rfl, rfl, rfl⟩
    refine ⟨c, v0, hcres, by rw [hcval]; exact hv0, ?_, ?_⟩
    · rw [hctext]
      show val (jsTrim p0.text) = some v0
      rw [val_jsTrim]
      exact hp0text
    · intro tok htok w hw
      have hkeep := hp0max _ (List.mem_map_of_mem _ htok)
      unfold tokKeepDesc at hkeep
      have hvtok : val (jsTrim tok) = some w := by
        rw [val_jsTrim]
        exact hw
      simp only [hvtok, hv0] at hkeep
      exact hkeep

/-- C3 witness: concrete instances for the three parts of the amended
claim. -/
theorem c3_multi_price_witness :
    abercrombieWrapperPrice "$160.00 $136.00" = some ("$136.00", true) ∧
    (∃ c, scanWrapperStep "$160.00 $136.00" = some c ∧ c.isDiscount = true ∧
      c.price = "$136.00" ∧ c.originalText = "$160.00") ∧
    ebayStep "div.x-price-primary"
      ⟨⟨"", [], none⟩, "US $269.99 $249.99 with coupon", none,
        false, false, false, false⟩ ≠ none := by
  refine ⟨?_, ?_, ?_⟩
  · obtain ⟨t, d, v, hres, _, _, _⟩ :=
      c3_multi_price.1 "$160.00 $136.00" (by decide)
    have : (t, d) = ("$136.00", true) := by
      have h2 : abercrombieWrapperPrice "$160.00 $136.00" = some ("$136.00", true) := by decide
      rw [hres] at h2
      exact Option.some.inj h2
    rw [hres, this]
  · obtain ⟨c, v, vo, hres, hd, _, _, _⟩ :=
      c3_multi_price.2.1 "$160.00 $136.00" (by decide) (by decide) (by decide) (by decide)
    refine ⟨c, hres, hd, ?_, ?_⟩
    · have h2 : scanWrapperStep "$160.00 $136.00" =
          some { price := "$136.00", isDiscount := true, originalText := "$160.00" } := by decide
      rw [hres] at h2
      rw [Option.some.inj h2]
    · have h2 : scanWrapperStep "$160.00 $136.00" =
          some { price := "$136.00", isDiscount := true, originalText := "$160.00" } := by decide
      rw [hres] at h2
      rw [Option.some.inj h2]
  · obtain ⟨c, v, hres, _, _, _⟩ :=
      c3_multi_price.2.2 "div.x-price-primary"
        ⟨⟨"", [], none⟩, "US $269.99 $249.99 with coupon", none,
          false, false, false, false⟩ (by decide) (by decide)
    rw [hres]
    simp

/-! ### Claim C2: the plausibility filter -/

/-- The per-path plausibility test
`priceValue >= 0.50 && priceValue <= 100000` agrees with `plausible`. -/
theorem vGe_vLe_eq_plausibleB (v : Option Frac) :
    (vGeB v lowBound && vLeB v highBound) = plausibleB v := by
  cases v with
  | none => rfl
  | some x => rfl

/-- Everything METHOD 3 of the Abercrombie path stores is plausible. -/
theorem method3First_plausibleB : ∀ {l : List (Elem × String)} {p : String},
    method3First l = some p → plausibleB (val p) = true := by
  intro l
  induction l with
  | nil => intro p h; exact absurd h (by simp [method3First])
  | cons e rest ih =>
    intro p h
    obtain ⟨el, tc⟩ := e
    simp only [method3First] at h
    split at h
    next hgate =>
      split at h
      next hbounds =>
        obtain rfl := Option.some.inj h
        rw [val_jsTrim, ← vGe_vLe_eq_plausibleB]
        exact hbounds
      next => exact ih h
    next => exact ih h

/-- Everything the Abercrombie price store keeps is plausible. -/
theorem abercrombieStore_plausibleB {resolved : Option String} {disc : Bool}
    {m3 : List (Elem × String)} {p : String} {d : Bool}
    (h : abercrombiePriceStore resolved disc m3 = some (p, d)) :
    plausibleB (val p) = true := by
  simp only [abercrombiePriceStore] at h
  cases resolved with
  | none =>
    dsimp only at h
    rw [Option.map_eq_some'] at h
    obtain ⟨q, hq, hqe⟩ := h
    rw [Prod.mk.injEq] at hqe
    obtain ⟨rfl, rfl⟩ := hqe
    exact method3First_plausibleB hq
  | some pt =>
    dsimp only at h
    by_cases hb : (vGeB (val pt) lowBound && vLeB (val pt) highBound) = true
    · rw [if_pos hb] at h
      dsimp only at h
      rw [Option.some.injEq, Prod.mk.injEq] at h
      obtain ⟨rfl, rfl⟩ := h
      rw [vGe_vLe_eq_plausibleB] at hb
      exact hb
    · rw [if_neg hb] at h
      dsimp only at h
      rw [Option.map_eq_some'] at h
      obtain ⟨q, hq, hqe⟩ := h
      rw [Prod.mk.injEq] at hqe
      obtain ⟨rfl, rfl⟩ := hqe
      exact method3First_plausibleB hq

/-- Everything the generic selector price path returns is plausible
(for any weight table, so this covers both the generic path and the
eBay fallback block). -/
theorem genericPriceCore_plausibleB {w1 w2 w3 : Int} {texts : List String} {p : String}
    (h : genericPriceCore w1 w2 w3 texts = some p) : plausibleB (val p) = true := by
  simp only [genericPriceCore] at h
  split at h
  · exact absurd h (by simp)
  next hne =>
    simp only [Option.map_eq_some'] at h
    obtain ⟨c, hc, rfl⟩ := h
    have hmem : c ∈ jsSortBy genKeepDesc
        ((texts.map (genericStep w1 w2 w3)).flatten) :=
      List.mem_of_mem_head? hc
    have hmem2 := (mem_jsSortBy _ _ _).mp hmem
    obtain ⟨lst, hlst, hclst⟩ := List.mem_flatten.mp hmem2
    obtain ⟨t, _, rfl⟩ := List.mem_map.mp hlst
    unfold genericStep at hclst
    split at hclst
    · exact absurd hclst (by simp)
    · obtain ⟨m, _, hm⟩ := List.mem_filterMap.mp hclst
      simp only at hm
      split at hm
      next hbounds =>
        obtain rfl := Option.some.inj hm
        rw [vGe_vLe_eq_plausibleB] at hbounds
        exact hbounds
      · exact absurd hm (by simp)

/-! #### Trim-invariance of the full price regex

`extractPrice` tests the plausibility gate on the first regex match of the
trimmed text but builds the candidate from the first match of the untrimmed
text; the two matches coincide because the scan skips whitespace and every
lexeme ends in a digit. -/

theorem ws_not_digit {c : Char} (h : c.isWhitespace = true) : c.isDigit = false := by
  cases hd : c.isDigit
  · rfl
  · rw [digit_not_ws hd] at h
    exact absurd h (by simp)

theorem ws_not_currency {c : Char} (h : c.isWhitespace = true) : isCurrency c = false := by
  cases hc : isCurrency c
  · rfl
  · rw [currency_not_ws hc] at h
    exact absurd h (by simp)

theorem takeWhile_ws_digit_nil {t : List Char} (ht : ∀ x ∈ t, x.isWhitespace = true) :
    t.takeWhile Char.isDigit = [] := by
  cases t with
  | nil => rfl
  | cons a t2 =>
    simp [List.takeWhile_cons, ws_not_digit (ht a (List.mem_cons_self _ _))]

theorem dropWhile_ws_digit_self {t : List Char} (ht : ∀ x ∈ t, x.isWhitespace = true) :
    t.dropWhile Char.isDigit = t := by
  cases t with
  | nil => rfl
  | cons a t2 =>
    simp [List.dropWhile_cons, ws_not_digit (ht a (List.mem_cons_self _ _))]

/-- Appending an all-whitespace tail changes neither the digit prefix nor
the position where it stops. -/
theorem spanDigit_append_ws {t : List Char} (ht : ∀ x ∈ t, x.isWhitespace = true) :
    ∀ l : List Char,
      (l ++ t).takeWhile Char.isDigit = l.takeWhile Char.isDigit ∧
      (l ++ t).dropWhile Char.isDigit = l.dropWhile Char.isDigit ++ t := by
  intro l
  induction l with
  | nil =>
    simp only [List.nil_append, List.takeWhile_nil, List.dropWhile_nil]
    exact ⟨takeWhile_ws_digit_nil ht, (dropWhile_ws_digit_self ht).trans (by simp)⟩
  | cons a as ih =>
    by_cases ha : a.isDigit = true
    · simp [List.takeWhile_cons, List.dropWhile_cons, ha, ih.1, ih.2]
    · simp [List.takeWhile_cons, List.dropWhile_cons, ha]

theorem fullCore_all_ws_none {t : List Char} (ht : ∀ x ∈ t, x.isWhitespace = true) :
    fullCore t = none := by
  simp only [fullCore, takeWhile_ws_digit_nil ht]
  rfl

theorem fullCore_append_ws {t : List Char} (ht : ∀ x ∈ t, x.isWhitespace = true)
    (l : List Char) :
    fullCore (l ++ t) = (fullCore l).map (fun p => (p.1, p.2 ++ t)) := by
  obtain ⟨hTW, hDW⟩ := spanDigit_append_ws ht l
  simp only [fullCore, hTW, hDW]
  by_cases hemp : (l.takeWhile Char.isDigit).isEmpty = true
  · rw [if_pos hemp, if_pos hemp]
    rfl
  · rw [if_neg hemp, if_neg hemp]
    cases hdw : l.dropWhile Char.isDigit with
    | nil =>
      simp only [List.nil_append]
      cases t with
      | nil => rfl
      | cons s t2 =>
        have hs : (s = '.' || s = ',') = false := by
          have hws := ht s (List.mem_cons_self _ _)
          cases hdot : (s = '.' || s = ',')
          · rfl
          · exfalso
            simp only [Bool.or_eq_true, decide_eq_true_eq] at hdot
            rcases hdot with rfl | rfl <;> exact absurd hws (by decide)
        simp [hs]
    | cons s0 r0 =>
      simp only [List.cons_append]
      obtain ⟨hTW2, hDW2⟩ := spanDigit_append_ws ht r0
      by_cases hdot : (s0 = '.' || s0 = ',') = true
      · rw [if_pos hdot, if_pos hdot, hTW2, hDW2]
        by_cases h2 : (r0.takeWhile Char.isDigit).isEmpty = true
        · rw [if_pos h2, if_pos h2]
          simp
        · rw [if_neg h2, if_neg h2]
          simp
      · rw [if_neg hdot, if_neg hdot]
        simp

theorem fullAttempt_append_ws {t : List Char} (ht : ∀ x ∈ t, x.isWhitespace = true)
    (c : Char) (rest : List Char) :
    fullAttempt c (rest ++ t) = (fullAttempt c rest).map (fun p => (p.1, p.2 ++ t)) := by
  cases rest with
  | nil =>
    simp only [fullAttempt, wsAttempt, List.nil_append]
    cases t with
    | nil => rfl
    | cons d t2 =>
      have hd : d.isWhitespace = true := ht d (List.mem_cons_self _ _)
      have h2 : fullCore t2 = none :=
        fullCore_all_ws_none (fun x hx => ht x (List.mem_cons_of_mem _ hx))
      dsimp only
      rw [if_pos hd, h2]
      rfl
  | cons d rest2 =>
    simp only [fullAttempt, wsAttempt, List.cons_append]
    by_cases hd : d.isWhitespace = true
    · rw [if_pos hd, if_pos hd, fullCore_append_ws ht rest2]
      cases fullCore rest2 with
      | none => rfl
      | some p => simp
    · have hca := fullCore_append_ws ht (d :: rest2)
      rw [List.cons_append] at hca
      rw [if_neg hd, if_neg hd, hca]
      cases fullCore (d :: rest2) with
      | none => rfl
      | some p => simp

theorem scanT_all_ws_none {att : Char → List Char → Option (List Char × List Char)} :
    ∀ {t : List Char}, (∀ x ∈ t, x.isWhitespace = true) → scanT att t = none := by
  intro t
  induction t with
  | nil => intro _; rfl
  | cons c rest ih =>
    intro ht
    have hc : isCurrency c = false := ws_not_currency (ht c (List.mem_cons_self _ _))
    simp only [scanT, hc, Bool.false_eq_true, if_false]
    exact ih (fun x hx => ht x (List.mem_cons_of_mem _ hx))

theorem matchFullT_append_ws {t : List Char} (ht : ∀ x ∈ t, x.isWhitespace = true) :
    ∀ cs : List Char, matchFullT (cs ++ t) = (matchFullT cs).map (fun p => (p.1, p.2 ++ t)) := by
  intro cs
  induction cs with
  | nil =>
    simp only [List.nil_append, matchFullT]
    rw [scanT_all_ws_none ht]
    rfl
  | cons c rest ih =>
    simp only [matchFullT] at ih
    simp only [matchFullT, scanT, List.cons_append, List.append_eq]
    by_cases hc : isCurrency c = true
    · rw [if_pos hc, if_pos hc, fullAttempt_append_ws ht c rest]
      cases fullAttempt c rest with
      | none => exact ih
      | some p => simp
    · rw [if_neg hc, if_neg hc]
      exact ih

theorem matchFull_append_ws {t : List Char} (ht : ∀ x ∈ t, x.isWhitespace = true)
    (l : List Char) : matchFull (l ++ t) = matchFull l := by
  simp only [matchFull, matchFullT_append_ws ht l]
  cases matchFullT l with
  | none => rfl
  | some p => rfl

theorem matchFull_dropWhile_ws (cs : List Char) :
    matchFull (cs.dropWhile Char.isWhitespace) = matchFull cs := by
  induction cs with
  | nil => rfl
  | cons c rest ih =>
    by_cases hc : c.isWhitespace = true
    · have hstep : matchFull (c :: rest) = matchFull rest := by
        simp only [matchFull, matchFullT, scanT, ws_not_currency hc, Bool.false_eq_true,
          if_false]
      rw [List.dropWhile_cons, if_pos hc, ih, hstep]
    · rw [List.dropWhile_cons, if_neg hc]

/-- The first full-regex match is unchanged by `trim()`. -/
theorem matchFull_trimList (cs : List Char) : matchFull (trimList cs) = matchFull cs := by
  have h1 : matchFull (trimList cs) = matchFull (cs.dropWhile Char.isWhitespace) := by
    unfold trimList
    have hws : ∀ x ∈ ((cs.dropWhile Char.isWhitespace).reverse.takeWhile
        Char.isWhitespace).reverse, x.isWhitespace = true := by
      intro x hx
      exact List.mem_takeWhile_imp (List.mem_reverse.mp hx)
    have hdecomp : ((cs.dropWhile Char.isWhitespace).reverse.dropWhile
          Char.isWhitespace).reverse ++
        ((cs.dropWhile Char.isWhitespace).reverse.takeWhile Char.isWhitespace).reverse =
        cs.dropWhile Char.isWhitespace := by
      rw [← List.reverse_append, List.takeWhile_append_dropWhile, List.reverse_reverse]
    calc matchFull ((cs.dropWhile Char.isWhitespace).reverse.dropWhile
            Char.isWhitespace).reverse
        = matchFull (((cs.dropWhile Char.isWhitespace).reverse.dropWhile
              Char.isWhitespace).reverse ++
            ((cs.dropWhile Char.isWhitespace).reverse.takeWhile
              Char.isWhitespace).reverse) := (matchFull_append_ws hws _).symm
      _ = matchFull (cs.dropWhile Char.isWhitespace) := by rw [hdecomp]
  rw [h1, matchFull_dropWhile_ws]

theorem matchFull_jsTrim (s : String) :
    matchFull (jsTrim s).data = matchFull s.data :=
  matchFull_trimList s.data

/-! #### Shape of the token parser's output -/

/-- Every match of the main currency regex is a currency symbol, a
non-empty digit run, and a lexeme consisting of the symbol, an optional
whitespace character, and the digits. -/
theorem matchCurrencyNum_shape : ∀ {cs : List Char} {c : Char} {digs m0 : List Char},
    matchCurrencyNum cs = some (c, digs, m0) →
    isCurrency c = true ∧ digs ≠ [] ∧ (∀ x ∈ digs, x.isDigit = true) ∧
      (m0 = c :: digs ∨ ∃ w, w.isWhitespace = true ∧ m0 = c :: w :: digs) := by
  intro cs
  induction cs with
  | nil => intro c digs m0 h; exact absurd h (by simp [matchCurrencyNum])
  | cons a rest ih =>
    intro c digs m0 h
    simp only [matchCurrencyNum] at h
    split at h
    next ha =>
      split at h
      next => exact absurd h (by simp [matchCurrencyNum])
      next d rest2 =>
        split at h
        next hws =>
          split at h
          next => exact ih h
          next hne =>
            simp only [Option.some.injEq, Prod.mk.injEq] at h
            obtain ⟨rfl, rfl, rfl⟩ := h
            refine ⟨ha, ?_, takeWhile_digits rest2, Or.inr ⟨d, hws, rfl⟩⟩
            intro hnil
            rw [hnil] at hne
            exact absurd rfl hne
        next hws =>
          split at h
          next => exact ih h
          next hne =>
            simp only [Option.some.injEq, Prod.mk.injEq] at h
            obtain ⟨rfl, rfl, rfl⟩ := h
            refine ⟨ha, ?_, takeWhile_digits (d :: rest2), Or.inl rfl⟩
            intro hnil
            rw [hnil] at hne
            exact absurd rfl hne
    next => exact ih h

/-- The first full-regex match has the scanner lexeme shape. -/
theorem matchFull_shape {cs lex : List Char} (h : matchFull cs = some lex) :
    LexShape lex := by
  simp only [matchFull, matchFullT, Option.map_eq_some'] at h
  obtain ⟨⟨l, r⟩, hl, hlex⟩ := h
  rw [← hlex]
  exact scanT_shape (fun hc h2 => wsAttempt_shape fullCore_shape hc h2) hl

/-- Every price `extractPriceFromElement` returns parses to a number
(never `NaN`): each of its four output forms is a currency symbol,
optional whitespace, then digits. -/
theorem epfe_val_isSome {el : Elem} {p : String}
    (h : extractPriceFromElement el = some p) : (val p).isSome = true := by
  simp only [extractPriceFromElement] at h
  split at h
  next currency mainPrice match0 hm =>
    obtain ⟨hc, hd, hdd, hm0⟩ := matchCurrencyNum_shape hm
    split at h
    next s hs =>
      obtain rfl := Option.some.inj h
      apply val_isSome_of_LexShape
      exact ⟨currency, [], mainPrice, '.' :: pad2 (jsTrim s).data, by simp, hc, by simp, hd, hdd⟩
    next hs =>
      split at h
      next sib hsib =>
        split at h
        next hcond =>
          obtain rfl := Option.some.inj h
          apply val_isSome_of_LexShape
          exact ⟨currency, [], mainPrice, '.' :: pad2 (jsTrim sib.text).data, by simp, hc,
            by simp, hd, hdd⟩
        next hcond =>
          obtain rfl := Option.some.inj h
          apply val_isSome_of_LexShape
          rcases hm0 with rfl | ⟨w, hw, rfl⟩
          · exact ⟨currency, [], mainPrice, [], by simp, hc, by simp, hd, hdd⟩
          · exact ⟨currency, [w], mainPrice, [], by simp, hc, by simp [hw], hd, hdd⟩
      next =>
        obtain rfl := Option.some.inj h
        apply val_isSome_of_LexShape
        rcases hm0 with rfl | ⟨w, hw, rfl⟩
        · exact ⟨currency, [], mainPrice, [], by simp, hc, by simp, hd, hdd⟩
        · exact ⟨currency, [w], mainPrice, [], by simp, hc, by simp [hw], hd, hdd⟩
  next hm =>
    split at h
    next lex hlex =>
      obtain rfl := Option.some.inj h
      exact val_isSome_of_LexShape (matchFull_shape hlex)
    next => exact absurd h (by simp)

/-- When the token parser fails, so does the full price regex on the
trimmed text (the parser falls back to exactly that regex). -/
theorem epfe_none {el : Elem} (h : extractPriceFromElement el = none) :
    matchFull (jsTrim el.innerText).data = none := by
  simp only [extractPriceFromElement] at h
  split at h
  next hm =>
    split at h
    · exact absurd h (by simp)
    · split at h
      · split at h
        · exact absurd h (by simp)
        · exact absurd h (by simp)
      · exact absurd h (by simp)
  next hm =>
    split at h
    next lex hlex => exact absurd h (by simp)
    next hlex => exact hlex

/-! #### The plausibility gate on the whole-page fallback path -/

/-- Core of claim C2 for the whole-page heuristic `extractPrice`: every
price it returns passed the `0.50 ≤ v ≤ 100000` candidate filter. -/
theorem extractPrice_plausibleB {env : PriceEnv} {els : List PageEl} {p : String}
    (h : extractPrice env els = some p) : plausibleB (val p) = true := by
  simp only [extractPrice] at h
  split at h
  · exact absurd h (by simp)
  next hne =>
    split at h
    next c hc =>
      split at h
      · exact absurd h (by simp)
      next hcne =>
        obtain rfl := Option.some.inj h
        have hmem : c ∈ jsSortBy priceKeep
            (((els.filter priceFilter).map (priceMap env)).filterMap id) :=
          List.mem_of_mem_head? hc
        have hmem2 := (mem_jsSortBy _ _ _).mp hmem
        obtain ⟨o, ho, hoc⟩ := List.mem_filterMap.mp hmem2
        obtain ⟨e, he, rfl⟩ := List.mem_map.mp ho
        have hef : priceFilter e = true := List.of_mem_filter he
        simp only [id] at hoc
        simp only [priceMap] at hoc
        simp only [priceFilter] at hef
        split at hef
        · exact absurd hef (by simp)
        next hhid =>
          cases heqp : extractPriceFromElement e.el with
          | some q =>
            rw [heqp] at hoc hef
            dsimp only at hoc hef
            obtain rfl := Option.some.inj hoc
            split at hef
            · exact absurd hef (by simp)
            next =>
              split at hef
              · exact absurd hef (by simp)
              next =>
                split at hef
                · exact absurd hef (by simp)
                next =>
                  split at hef
                  · exact absurd hef (by simp)
                  next hlow =>
                    split at hef
                    · exact absurd hef (by simp)
                    next hhigh =>
                      show plausibleB (val q) = true
                      obtain ⟨x, hx⟩ :=
                        Option.isSome_iff_exists.mp (epfe_val_isSome heqp)
                      rw [hx]
                      rw [hx] at hlow hhigh
                      have hlow2 : Frac.ltB x lowBound = false := by
                        cases hb : Frac.ltB x lowBound
                        · rfl
                        · exact absurd (show vLtB (some x) lowBound = true from hb) hlow
                      have hhigh2 : Frac.ltB highBound x = false := by
                        cases hb : Frac.ltB highBound x
                        · rfl
                        · exact absurd (show vGtB (some x) highBound = true from hb) hhigh
                      simp only [plausibleB]
                      rw [Frac.leB_of_ltB_false hlow2, Frac.leB_of_ltB_false hhigh2]
                      rfl
          | none =>
            rw [heqp] at hoc hef
            dsimp only at hoc hef
            cases hmf : matchFull e.el.innerText.data with
            | none =>
              rw [hmf] at hoc
              exact absurd hoc (by simp)
            | some lex =>
              have htr : matchFull (jsTrim e.el.innerText).data = some lex := by
                rw [matchFull_jsTrim, hmf]
              rw [hmf] at hoc
              simp only [Option.map_some'] at hoc
              obtain rfl := Option.some.inj hoc
              rw [htr] at hef
              simp only [Option.map_some'] at hef
              split at hef
              · exact absurd hef (by simp)
              next =>
                split at hef
                · exact absurd hef (by simp)
                next =>
                  split at hef
                  · exact absurd hef (by simp)
                  next =>
                    split at hef
                    · exact absurd hef (by simp)
                    next hlow =>
                      split at hef
                      · exact absurd hef (by simp)
                      next hhigh =>
                        show plausibleB (val (String.mk lex)) = true
                        obtain ⟨x, hx⟩ := Option.isSome_iff_exists.mp
                          (val_isSome_of_LexShape (matchFull_shape hmf))
                        rw [hx]
                        rw [hx] at hlow hhigh
                        have hlow2 : Frac.ltB x lowBound = false := by
                          cases hb : Frac.ltB x lowBound
                          · rfl
                          · exact absurd (show vLtB (some x) lowBound = true from hb) hlow
                        have hhigh2 : Frac.ltB highBound x = false := by
                          cases hb : Frac.ltB highBound x
                          · rfl
                          · exact absurd (show vGtB (some x) highBound = true from hb) hhigh
                        simp only [plausibleB]
                        rw [Frac.leB_of_ltB_false hlow2, Frac.leB_of_ltB_false hhigh2]
                        rfl
    next => exact absurd h (by simp)

/-! #### The plausibility gate on the eBay selector path -/

/-- Final gate of `ebayStep`: the candidate is built only when the
carried value is plausible, and that value is the parse of the candidate
text. -/
theorem ebayTail_plausibleB {pt : String} {pv : Option Frac} {sc : Frac} {sel : String}
    {c : EbayCand} (hpv : pv = val pt)
    (h : (if plausibleB pv = true then
        some ({ text := jsTrim pt, value := pv, score := sc, selector := sel } : EbayCand)
      else none) = some c) :
    plausibleB (val c.text) = true := by
  split at h
  next hp =>
    obtain rfl := Option.some.inj h
    show plausibleB (val (jsTrim pt)) = true
    rw [val_jsTrim, ← hpv]
    exact hp
  next => exact absurd h (by simp)

/-- Every candidate `ebayStep` emits carries a plausible price text:
its value field is the parse of its text, and the step's explicit
plausibility gate checked it. -/
theorem ebayStep_plausibleB {sel : String} {e : EbayEl} {c : EbayCand}
    (h : ebayStep sel e = some c) : plausibleB (val c.text) = true := by
  simp only [ebayStep] at h
  split at h
  next => exact absurd h (by simp)
  next pt0 pv0 heq =>
    have hval0 : pv0 = val pt0 := by
      split at heq
      next =>
        split at heq
        next t ht =>
          simp only [Option.some.injEq, Prod.mk.injEq] at heq
          obtain ⟨rfl, rfl⟩ := heq
          have hmem : t ∈ jsSortBy tokKeepDesc ((matchAllEbay e.fullText).map
              (fun p => ({ text := jsTrim p, value := val (jsTrim p) } : Tok))) :=
            List.mem_of_mem_head? ht
          have hmem2 := (mem_jsSortBy _ _ _).mp hmem
          obtain ⟨p, hp, rfl⟩ := List.mem_map.mp hmem2
          rfl
        next => exact absurd heq (by simp)
      next =>
        split at heq
        next =>
          split at heq
          next p hp =>
            simp only [Option.some.injEq, Prod.mk.injEq] at heq
            obtain ⟨rfl, rfl⟩ := heq
            rfl
          next => exact absurd heq (by simp)
        next =>
          split at heq
          next p hp =>
            split at heq
            next => exact absurd heq (by simp)
            next =>
              simp only [Option.some.injEq, Prod.mk.injEq] at heq
              obtain ⟨rfl, rfl⟩ := heq
              rfl
          next => exact absurd heq (by simp)
    by_cases hdot : endsWithDot pt0 = true
    · rw [if_pos hdot] at h
      cases hpar : e.parentText with
      | none =>
        rw [hpar] at h
        dsimp only at h
        exact ebayTail_plausibleB hval0 h
      | some ptxt =>
        rw [hpar] at h
        dsimp only at h
        cases hfind : (matchAllEbay ptxt).find? (fun p => pt0.data.isPrefixOf p.data) with
        | none =>
          rw [hfind] at h
          dsimp only at h
          exact ebayTail_plausibleB hval0 h
        | some comp =>
          rw [hfind] at h
          dsimp only at h
          by_cases hcont : comp.data.contains '.' = true
          · rw [if_pos hcont] at h
            dsimp only at h
            exact ebayTail_plausibleB rfl h
          · rw [if_neg hcont] at h
            dsimp only at h
            exact ebayTail_plausibleB hval0 h
    · rw [if_neg hdot] at h
      dsimp only at h
      exact ebayTail_plausibleB hval0 h

/-- Every price the eBay selector path returns is plausible. -/
theorem ebayPrice_plausibleB {inputs : List (String × EbayEl)} {p : String}
    (h : ebayPrice inputs = some p) : plausibleB (val p) = true := by
  simp only [ebayPrice] at h
  split at h
  · exact absurd h (by simp)
  next hne =>
    simp only [Option.map_eq_some'] at h
    obtain ⟨c, hc, rfl⟩ := h
    have hmem : c ∈ jsSortBy ebayKeepDesc
        (inputs.filterMap (fun se => ebayStep se.1 se.2)) :=
      List.mem_of_mem_head? hc
    have hmem2 := (mem_jsSortBy _ _ _).mp hmem
    obtain ⟨se, hse, hstep⟩ := List.mem_filterMap.mp hmem2
    exact ebayStep_plausibleB hstep

/-- C2 counterexample: the Amazon site-specific price path applies no
plausibility filter.  An Amazon price element whose text is `$0.25`
makes the token parser return `$0` (the cent probes fail), whose value
`0` is below the `0.50` bound every other path enforces, yet the Amazon
path returns it as the extracted price. -/
theorem c2_counterexample :
    amazonPrice [⟨⟨"$0.25", [], none⟩, "$0.25", none, none⟩] = some "$0" ∧
    val "$0" = some ⟨0, 1⟩ ∧
    plausibleB (val "$0") = false := by decide

/-- C2 (amended): every extraction path except the Amazon site-specific
price path returns only prices whose parsed value `v` satisfies
`0.5 ≤ v ≤ 100000`: the whole-page heuristic `extractPrice`, the eBay
selector path `ebayPrice`, the generic selector path `genericPriceCore`
under any score weights (which also covers the eBay fallback block), and
the Abercrombie price store `abercrombiePriceStore`.  The Amazon path
has no such filter (see the counterexample). -/
theorem c2_plausibility_filter :
    (∀ (env : PriceEnv) (els : List PageEl) (p : String),
      extractPrice env els = some p → plausibleB (val p) = true) ∧
    (∀ (inputs : List (String × EbayEl)) (p : String),
      ebayPrice inputs = some p → plausibleB (val p) = true) ∧
    (∀ (w1 w2 w3 : Int) (texts : List String) (p : String),
      genericPriceCore w1 w2 w3 texts = some p → plausibleB (val p) = true) ∧
    (∀ (resolved : Option String) (disc : Bool) (m3 : List (Elem × String))
      (p : String) (d : Bool),
      abercrombiePriceStore resolved disc m3 = some (p, d) → plausibleB (val p) = true) :=
  ⟨fun _ _ _ h => extractPrice_plausibleB h,
   fun _ _ h => ebayPrice_plausibleB h,
   fun _ _ _ _ _ h => genericPriceCore_plausibleB h,
   fun _ _ _ _ _ h => abercrombieStore_plausibleB h⟩

/-- C2 witness: concrete runs of the four filtered paths, with the
plausibility of each returned price obtained from the filter theorem. -/
theorem c2_plausibility_filter_witness :
    extractPrice ⟨none, ⟨1000, 1⟩⟩
        [⟨⟨"$29.99", [], none⟩, false, ⟨0, 1⟩, ⟨0, 1⟩, ⟨10, 1⟩⟩] = some "$29" ∧
    ebayPrice [("div.x-price-primary",
        ⟨⟨"", [], none⟩, "US $269.99 $249.99 with coupon", none,
          false, false, false, false⟩)] = some "$269.99" ∧
    genericPriceCore 10000 5000 100 ["$29.99"] = some "$29.99" ∧
    abercrombiePriceStore (some "$136.00") false [] = some ("$136.00", false) ∧
    plausibleB (val "$29") = true ∧ plausibleB (val "$269.99") = true ∧
    plausibleB (val "$29.99") = true ∧ plausibleB (val "$136.00") = true :=
  ⟨by decide, by decide, by decide, by decide,
   c2_plausibility_filter.1 ⟨none, ⟨1000, 1⟩⟩
     [⟨⟨"$29.99", [], none⟩, false, ⟨0, 1⟩, ⟨0, 1⟩, ⟨10, 1⟩⟩] "$29" (by decide),
   c2_plausibility_filter.2.1 [("div.x-price-primary",
       ⟨⟨"", [], none⟩, "US $269.99 $249.99 with coupon", none,
         false, false, false, false⟩)] "$269.99" (by decide),
   c2_plausibility_filter.2.2.1 10000 5000 100 ["$29.99"] "$29.99" (by decide),
   c2_plausibility_filter.2.2.2 (some "$136.00") false [] "$136.00" false (by decide)⟩

end Extract
